import Mathlib

/-!
# cinder::ShaderPreprocessor

A shallow embedding of `src/cinder/ShaderPreprocessor.cpp` (the recursive
`#include` flattener of Cinder) together with theorems about it.

Modelling conventions

* `std::string`, a line and `fs::path` are lists of characters.
* `fs::path` is ordered by comparing the elements the paths iterate over, not
  their spelling: `sub//b.glsl` and `sub/b.glsl` are one key.  The containers
  `std::set<fs::path>` and `std::map<fs::path, Source>` are therefore
  represented by the keys they hold, a key (`PathKey`) being the sequence of
  elements of a path, given by the field `elements` of `FileSystem`.
* The host filesystem and the path algebra of the filesystem library
  (`operator/`, `parent_path`, the iteration over elements, `fs::exists`,
  `fs::last_write_time`, `ifstream`) are the fields of `FileSystem`; nothing is
  assumed about them.
* An exception is the `Except.error` branch of a result.  The state reached when
  the exception is thrown is returned as well, because the cache `mCachedSources`
  is a member of the object and outlives the exception.
* `parseRecursive` recurses along the include graph, which need not be
  well-founded in an arbitrary filesystem, so the embedding takes a recursion
  budget `fuel`; `none` means the budget was exhausted, never a program result.
* `#define ENABLE_CACHING` is the Boolean parameter `caching`.
* Library behaviour taken as given: `regex_search` with a pattern that starts with
  `^` matches at offset 0 only, quantifiers are greedy with backtracking, and `.`
  matches every character but `\n` and `\r`; `getline` splits at `\n`; `endl`
  writes `\n`; `fs::last_write_time` of a path found by `fs::exists` returns.
  The counter `lineNumber` is a natural number (a `size_t` cannot wrap before the
  file has `2 ^ 64` lines).
* Ghost data, absent from the source and never read by the embedded code: the
  list of `Event`s a call performs (entries into `parseRecursive`, filesystem
  probes, stream opens) and the list `active` of the requested paths of the
  frames that are still running.
-/

namespace ShaderPreprocessor

/-! ## Regular expressions (the fragment of ECMAScript used by `sIncludeRegex`) -/

/-- How often an atom may repeat: exactly once, `*` or `+` (both greedy). -/
inductive Quant where
  | one
  | star
  | plus
  deriving DecidableEq

/-- One quantified character class of a pattern; `capture` marks the atom that
forms capture group 1. -/
structure Atom where
  cls : Char → Bool
  quant : Quant
  capture : Bool

/-- A pattern anchored at the start of the input (`^`): a sequence of atoms and
whether it ends in `$`. -/
structure Regex where
  atoms : List Atom
  anchoredEnd : Bool

/-- Greedy repetition with backtracking: consume as many characters of the class
as possible, giving one back at a time while the continuation `k` fails. -/
def matchStar {α : Type} (cls : Char → Bool) (k : List Char → Option α) :
    List Char → Option (List Char × α)
  | [] => (k []).map fun r => ([], r)
  | c :: s =>
    if cls c then
      match matchStar cls k s with
      | some (pre, r) => some (c :: pre, r)
      | none => (k (c :: s)).map fun r => ([], r)
    else (k (c :: s)).map fun r => ([], r)

/-- Backtracking match of a sequence of atoms against a prefix of the input (all
of the input when `atEnd`); the value is the text of capture group 1. -/
def matchAtoms (atEnd : Bool) : List Atom → List Char → Option (List Char)
  | [], s => if atEnd && !s.isEmpty then none else some []
  | a :: rest, s =>
    match a.quant with
    | .one =>
      match s with
      | [] => none
      | c :: s' =>
        if a.cls c then
          (matchAtoms atEnd rest s').map fun cap => (if a.capture then [c] else []) ++ cap
        else none
    | .star =>
      (matchStar a.cls (matchAtoms atEnd rest) s).map fun r =>
        (if a.capture then r.1 else []) ++ r.2
    | .plus =>
      match s with
      | [] => none
      | c :: s' =>
        if a.cls c then
          (matchStar a.cls (matchAtoms atEnd rest) s').map fun r =>
            (if a.capture then c :: r.1 else []) ++ r.2
        else none

/-- The call `regex_search( line, matches, re )` followed by `matches[1].str()`,
for a pattern that starts with `^` (so that only offset 0 can match). -/
def regex_search (re : Regex) (line : List Char) : Option (List Char) :=
  matchAtoms re.anchoredEnd re.atoms line

/-- A literal character. -/
def lit (c : Char) : Atom := ⟨fun x => x == c, .one, false⟩

/-- The class `[ ]`. -/
def isBlank (c : Char) : Bool := c == ' '

/-- The ECMAScript `.`: any character but a line terminator. -/
def isDot (c : Char) : Bool := c != '\n' && c != '\r'

/-- The class `["<]`. -/
def isOpenDelim (c : Char) : Bool := c == '"' || c == '<'

/-- The class `[">]`. -/
def isCloseDelim (c : Char) : Bool := c == '"' || c == '>'

/-- The pattern `^[ ]*#[ ]*include[ ]+["<](.*)[">].*` of the source. -/
def sIncludeRegex : Regex where
  atoms :=
    [⟨isBlank, .star, false⟩, lit '#', ⟨isBlank, .star, false⟩,
      lit 'i', lit 'n', lit 'c', lit 'l', lit 'u', lit 'd', lit 'e',
      ⟨isBlank, .plus, false⟩, ⟨isOpenDelim, .one, false⟩, ⟨isDot, .star, true⟩,
      ⟨isCloseDelim, .one, false⟩, ⟨isDot, .star, false⟩]
  anchoredEnd := false

/-! ## Environment -/

/-- A path (`fs::path`), as the string it was built from. -/
abbrev Path := List Char

/-- The key of a path in `std::set<fs::path>` and `std::map<fs::path, Source>`: the
sequence of its elements, which is what the comparison of two paths looks at. -/
abbrev PathKey := List (List Char)

/-- The filesystem library and the state of the disk, as seen by one call. -/
structure FileSystem where
  /-- The path `lhs / rhs`. -/
  join : Path → Path → Path
  /-- The path `p.parent_path()`. -/
  parent_path : Path → Path
  /-- The elements from `p.begin()` to `p.end()`; two paths compare equal exactly
  when these sequences are equal. -/
  elements : Path → PathKey
  /-- The test `fs::exists( p )`. -/
  pathExists : Path → Bool
  /-- The value `fs::last_write_time( p )`. -/
  last_write_time : Path → Int
  /-- The bytes `ifstream input( p )` delivers, `none` when `is_open()` fails. -/
  contents : Path → Option (List Char)

/-- The exception `ShaderPreprocessorExc`, by the message it carries. -/
inductive ShaderPreprocessorExc where
  /-- The message "circular include found, path: " with the requested path. -/
  | circularInclude (path : Path)
  /-- The message "could not find shader with include path: " with the requested path. -/
  | couldNotFind (path : Path)
  /-- The message "Failed to open file at path: " with the resolved path. -/
  | failedToOpen (fullPath : Path)
  deriving DecidableEq

/-- The record `ShaderPreprocessor::Source` stored in the cache. -/
structure Source where
  mTimeLastWrite : Int
  mString : List Char
  deriving DecidableEq

/-- Ghost record of what a call does. -/
inductive Event where
  /-- Entry into `parseRecursive` for `path` while the frames of `active` run. -/
  | call (path : Path) (active : List Path)
  /-- A call of `fs::exists`. -/
  | probe (fullPath : Path)
  /-- A call of `fs::last_write_time`. -/
  | stat (fullPath : Path)
  /-- Construction of an `ifstream`. -/
  | ifstream (fullPath : Path)
  deriving DecidableEq

/-- The mutable data of a `parse` call: the member `mCachedSources`, a map from
the key of a path to its entry, and the local `includeTree`, the keys of the set
with the last one inserted first. -/
structure State where
  mCachedSources : PathKey → Option Source
  includeTree : List PathKey

/-- What a call gives back: the returned string or the exception thrown, the
state it leaves, and the events it performed. -/
abbrev Outcome := Except ShaderPreprocessorExc (List Char) × State × List Event

/-! ## The program -/

/-- The loop `for( const auto &searchPath : mSearchPaths )` of `findFullPath` and
the `throw` after it. -/
def findInSearchPaths (fs : FileSystem) (path : Path) :
    List Path → Except ShaderPreprocessorExc Path × List Event
  | [] => (.error (.couldNotFind path), [])
  | searchPath :: rest =>
    let fullPath := fs.join searchPath path
    if fs.pathExists fullPath then (.ok fullPath, [.probe fullPath])
    else
      let r := findInSearchPaths fs path rest
      (r.1, .probe fullPath :: r.2)

/-- The method `ShaderPreprocessor::findFullPath`. -/
def findFullPath (fs : FileSystem) (mSearchPaths : List Path) (path parentPath : Path) :
    Except ShaderPreprocessorExc Path × List Event :=
  let fullPath := fs.join parentPath path
  if fs.pathExists fullPath then (.ok fullPath, [.probe fullPath])
  else
    let r := findInSearchPaths fs path mSearchPaths
    (r.1, .probe fullPath :: r.2)

/-- The lines that `while( getline( input, line ) )` delivers for a stream with
the given bytes; `cur` is the part of the current line read so far. -/
def getlinesFrom (cur : List Char) : List Char → List (List Char)
  | [] => if cur.isEmpty then [] else [cur]
  | c :: rest => if c == '\n' then cur :: getlinesFrom [] rest else getlinesFrom (cur ++ [c]) rest

/-- The lines of a file. -/
def getlines (content : List Char) : List (List Char) := getlinesFrom [] content

/-- The text `"#line " << lineNumber << endl`. -/
def lineMarker (lineNumber : Nat) : List Char :=
  "#line ".toList ++ Nat.toDigits 10 lineNumber ++ ['\n']

/-- The loop `while( getline( input, line ) )` of `parseRecursive`, over the lines
still to read; `recurse` is the recursive call for a captured path. -/
def scanLines (recurse : Path → State → Option Outcome) :
    List (List Char) → Nat → List Char → State → List Event → Option Outcome
  | [], _, output, st, ev => some (.ok output, st, ev)
  | line :: rest, lineNumber, output, st, ev =>
    match regex_search sIncludeRegex line with
    | some captured =>
      match recurse captured st with
      | none => none
      | some (.error e, st', ev') => some (.error e, st', ev ++ ev')
      | some (.ok text, st', ev') =>
        scanLines recurse rest (lineNumber + 1)
          (output ++ text ++ lineMarker lineNumber ++ ['\n']) st' (ev ++ ev')
    | none => scanLines recurse rest (lineNumber + 1) (output ++ line ++ ['\n']) st ev

/-- The test of the `#if ENABLE_CACHING` block at the top of `parseRecursive`:
the entry `mCachedSources.find( path )` finds, under the key of `path`, when it
is at least as new as the file. -/
def cacheLookup (fs : FileSystem) (st : State) (path : Path) (timeLastWrite : Int) :
    Option Source :=
  match st.mCachedSources (fs.elements path) with
  | some cached => if cached.mTimeLastWrite ≥ timeLastWrite then some cached else none
  | none => none

/-- The statements `Source &source = mCachedSources[path]; ...` at the end of
`parseRecursive`: the entry under the key of `path` is replaced. -/
def cacheStore (fs : FileSystem) (st : State) (path : Path) (timeLastWrite : Int)
    (output : List Char) : State :=
  { st with
    mCachedSources := fun key =>
      if key = fs.elements path then some ⟨timeLastWrite, output⟩
      else st.mCachedSources key }

/-- The method `ShaderPreprocessor::parseRecursive`.  The test
`includeTree.count( path )` and `includeTree.insert( path )` go by the key of
`path`; the exception names the path as it was requested. -/
def parseRecursive (caching : Bool) (fs : FileSystem) (mSearchPaths : List Path) :
    Nat → Path → Path → List Path → State → Option Outcome
  | 0, _, _, _, _ => none
  | fuel + 1, path, parentPath, active, st =>
    if fs.elements path ∈ st.includeTree then
      some (.error (.circularInclude path), st, [.call path active])
    else
      let st1 : State := { st with includeTree := fs.elements path :: st.includeTree }
      match findFullPath fs mSearchPaths path parentPath with
      | (.error e, probes) => some (.error e, st1, .call path active :: probes)
      | (.ok fullPath, probes) =>
        let timeLastWrite := fs.last_write_time fullPath
        let ev := .call path active :: probes ++ (if caching then [.stat fullPath] else [])
        match (if caching then cacheLookup fs st1 path timeLastWrite else none) with
        | some cached => some (.ok cached.mString, st1, ev)
        | none =>
          match fs.contents fullPath with
          | none => some (.error (.failedToOpen fullPath), st1, ev ++ [.ifstream fullPath])
          | some content =>
            match scanLines
                (fun captured s =>
                  parseRecursive caching fs mSearchPaths fuel captured
                    (fs.parent_path fullPath) (path :: active) s)
                (getlines content) 1 [] st1 (ev ++ [.ifstream fullPath]) with
            | none => none
            | some (.error e, st2, ev2) => some (.error e, st2, ev2)
            | some (.ok output, st2, ev2) =>
              if caching then
                some (.ok output, cacheStore fs st2 path timeLastWrite output, ev2)
              else some (.ok output, st2, ev2)

/-- The method `ShaderPreprocessor::parse`: a fresh `includeTree`, the empty
parent path `fs::path()`, no frame running. -/
def parse (caching : Bool) (fs : FileSystem) (mSearchPaths : List Path) (fuel : Nat)
    (mCachedSources : PathKey → Option Source) (path : Path) : Option Outcome :=
  parseRecursive caching fs mSearchPaths fuel path [] [] ⟨mCachedSources, []⟩

/-! ## Specification-side definitions and example disks -/

/-- The grammar of the source pattern, written out: `line` consists of blanks, `#`,
blanks, `include`, at least one blank, an opening delimiter, the text `cap` free
of line terminators, a closing delimiter, and anything after it. -/
def IsIncludeDirective (line cap : List Char) : Prop :=
  ∃ (i j k : Nat) (o c : Char) (tail : List Char),
    line = List.replicate i ' ' ++ '#' :: (List.replicate j ' ' ++
      ("include".toList ++ (List.replicate (k + 1) ' ' ++ o :: (cap ++ c :: tail)))) ∧
    (o = '"' ∨ o = '<') ∧ (c = '"' ∨ c = '>') ∧ ∀ x ∈ cap, x ≠ '\n' ∧ x ≠ '\r'

/-- The class `\s` as the specification reads it: a space or a tab. -/
def isSpecSpace (c : Char) : Bool := c == ' ' || c == '\t'

/-- The pattern `^\s*#\s*include\s+["<](.*)[">].*$` of the specification. -/
def specIncludeRegex : Regex where
  atoms :=
    [⟨isSpecSpace, .star, false⟩, lit '#', ⟨isSpecSpace, .star, false⟩,
      lit 'i', lit 'n', lit 'c', lit 'l', lit 'u', lit 'd', lit 'e',
      ⟨isSpecSpace, .plus, false⟩, ⟨isOpenDelim, .one, false⟩, ⟨isDot, .star, true⟩,
      ⟨isCloseDelim, .one, false⟩, ⟨isDot, .star, false⟩]
  anchoredEnd := true

/-- The paths of a toy disk: `lhs / rhs` puts a slash between non-empty parts. -/
def toyJoin (lhs rhs : Path) : Path :=
  if lhs.isEmpty then rhs else lhs ++ '/' :: rhs

/-- The pieces of a string between slashes, empty pieces left out; `cur` is the
piece read so far. -/
def splitSlash (cur : List Char) : List Char → List (List Char)
  | [] => if cur.isEmpty then [] else [cur]
  | c :: rest =>
    if c == '/' then
      (if cur.isEmpty then splitSlash [] rest else cur :: splitSlash [] rest)
    else splitSlash (cur ++ [c]) rest

/-- The elements of a path of a toy disk: the root directory when the path starts
with a slash, then the names between slashes; repeated slashes count once. -/
def toyElements (p : Path) : PathKey :=
  (if p.head? = some '/' then [['/']] else []) ++ splitSlash [] p

/-- A disk holding the listed files (full path, modification time, bytes) under
exactly the spellings listed; every file has the parent path `dir`. -/
def toyDisk (dir : String) (files : List (String × Int × String)) : FileSystem where
  join := toyJoin
  parent_path := fun _ => dir.toList
  elements := toyElements
  pathExists := fun p => files.any fun f => f.1.toList == p
  last_write_time := fun p => ((files.find? fun f => f.1.toList == p).map fun f => f.2.1).getD 0
  contents := fun p => (files.find? fun f => f.1.toList == p).map fun f => f.2.2.toList

/-- The empty cache of a freshly constructed preprocessor. -/
def noCache : PathKey → Option Source := fun _ => none

/-- The lines of a file, each followed by one newline. -/
def unlines : List (List Char) → List Char
  | [] => []
  | line :: rest => line ++ '\n' :: unlines rest

/-- The state right after `includeTree.insert( path )`. -/
def entered (fs : FileSystem) (st : State) (path : Path) : State :=
  { st with includeTree := fs.elements path :: st.includeTree }

/-- The events of a call up to the cache test: its entry, the probes of
`findFullPath` and, with caching, the query of the modification time. -/
def preamble (caching : Bool) (path : Path) (active : List Path) (probes : List Event)
    (fullPath : Path) : List Event :=
  .call path active :: probes ++ (if caching then [.stat fullPath] else [])

/-- The requested paths of the entries into `parseRecursive` among the events. -/
def calls : List Event → List Path
  | [] => []
  | .call p _ :: ev => p :: calls ev
  | .probe _ :: ev => calls ev
  | .stat _ :: ev => calls ev
  | .ifstream _ :: ev => calls ev

/-- The files for which an `ifstream` was constructed. -/
def opened : List Event → List Path
  | [] => []
  | .ifstream f :: ev => f :: opened ev
  | .call _ _ :: ev => opened ev
  | .probe _ :: ev => opened ev
  | .stat _ :: ev => opened ev

/-- Replay of the `includeTree` updates along a list of events in which every entry
passes the membership test: the chain reached, or `none` when an entry finds its
path in the chain. -/
def replay (fs : FileSystem) (chain : List PathKey) : List Event → Option (List PathKey)
  | [] => some chain
  | .call p _ :: ev =>
    if fs.elements p ∈ chain then none else replay fs (fs.elements p :: chain) ev
  | .probe _ :: ev => replay fs chain ev
  | .stat _ :: ev => replay fs chain ev
  | .ifstream _ :: ev => replay fs chain ev

/-- Every entry recorded in the events finds the frames it reports as running in
the chain built so far. -/
def activeInChain (fs : FileSystem) (chain : List PathKey) : List Event → Prop
  | [] => True
  | .call p a :: ev =>
    (∀ q ∈ a, fs.elements q ∈ chain) ∧ activeInChain fs (fs.elements p :: chain) ev
  | .probe _ :: ev => activeInChain fs chain ev
  | .stat _ :: ev => activeInChain fs chain ev
  | .ifstream _ :: ev => activeInChain fs chain ev

/-- The events of a call agree with its chain: either every entry passed the
membership test and the replay ends in the final chain, or the last event is an
entry for a path already in the chain and the call threw the circular-include
exception for that path. -/
def ChainInv (fs : FileSystem) (chain : List PathKey)
    (res : Except ShaderPreprocessorExc (List Char)) (final : List PathKey)
    (ev : List Event) : Prop :=
  replay fs chain ev = some final ∨
    ∃ T p a, ev = T ++ [.call p a] ∧ replay fs chain T = some final ∧
      fs.elements p ∈ final ∧ res = .error (.circularInclude p)

/-- The cache a call leaves behind (the empty one when the budget ran out). -/
def cacheAfter : Option Outcome → PathKey → Option Source
  | some o => o.2.1.mCachedSources
  | none => noCache

/-- The states of a cached and of an uncached run correspond: the chains agree and
the cached run has cache entries only for keys in the chain. -/
def Corresponds (sc su : State) : Prop :=
  sc.includeTree = su.includeTree ∧
    ∀ key, sc.mCachedSources key ≠ none → key ∈ sc.includeTree

/-- Two runs end alike: both exhaust the budget, or both return the same string or
throw the same exception, in corresponding states. -/
def SameResult : Option Outcome → Option Outcome → Prop
  | none, none => True
  | some oc, some ou => oc.1 = ou.1 ∧ Corresponds oc.2.1 ou.2.1
  | _, _ => False

/-- The text the line loop builds from lines numbered from `lineNumber`, given the
expansions of their include directives in order: a line that is no directive is
followed by one newline; a directive gives the expansion, the marker `#line` with
the directive's own line number, the newline that ends the marker and the newline
that ends every line. -/
def render : List (List Char) → Nat → List (List Char) → List Char
  | [], _, _ => []
  | line :: rest, lineNumber, children =>
    match regex_search sIncludeRegex line with
    | none => line ++ '\n' :: render rest (lineNumber + 1) children
    | some _ =>
      match children with
      | [] => []
      | child :: others =>
        child ++ ("#line ".toList ++ (Nat.toDigits 10 lineNumber ++
          '\n' :: '\n' :: render rest (lineNumber + 1) others))

/-- The expansions of the include directives of the lines, in order: each is the
string the recursive call for the captured path returns in the state the
previous call left, and `final` is the state after the last line. -/
def Children (recurse : Path → State → Option Outcome) :
    List (List Char) → State → List (List Char) → State → Prop
  | [], st, children, final => children = [] ∧ final = st
  | line :: rest, st, children, final =>
    match regex_search sIncludeRegex line with
    | none => Children recurse rest st children final
    | some captured =>
      ∃ child st1 ev others, recurse captured st = some (.ok child, st1, ev) ∧
        children = child :: others ∧ Children recurse rest st1 others final

/-- The output for a file all of whose lines are include directives, numbered from
`lineNumber`: each expansion, its marker line and a blank line. -/
def markersOnly : Nat → List (List Char) → List Char
  | _, [] => []
  | lineNumber, child :: others =>
    child ++ ("#line ".toList ++ (Nat.toDigits 10 lineNumber ++
      '\n' :: '\n' :: markersOnly (lineNumber + 1) others))

/-! ### Example disks -/

/-- Two files that include each other. -/
def cycleDisk : FileSystem :=
  toyDisk "" [("a.glsl", 1, "#include \"b.glsl\"\n"), ("b.glsl", 1, "x\n#include \"a.glsl\"\n")]

/-- A three-line root whose line 2 includes a one-line file. -/
def markerDisk : FileSystem :=
  toyDisk "" [("a.glsl", 1, "x\n#include \"b.glsl\"\nz\n"), ("b.glsl", 1, "y\n")]

/-- A root whose first line includes a one-line file. -/
def blankLineDisk : FileSystem :=
  toyDisk "" [("a.glsl", 1, "#include \"b.glsl\"\nz\n"), ("b.glsl", 1, "y\n")]

/-- A root whose only line is an include directive indented with a tab. -/
def tabDisk : FileSystem :=
  toyDisk "" [("a.glsl", 1, "\t#include \"b.glsl\"\n"), ("b.glsl", 1, "y\n")]

/-- A directive in a file with carriage returns before the newlines. -/
def crlfDisk : FileSystem :=
  toyDisk "" [("a.glsl", 1, "#include \"b.glsl\"\r\n"), ("b.glsl", 1, "y\n")]

/-- A directory `P` and a search root `S` that both hold `x.glsl`. -/
def searchDisk : FileSystem :=
  toyDisk "P" [("P/x.glsl", 1, "from P\n"), ("S/x.glsl", 1, "from S\n")]

/-- A root that includes a file, before the included file is edited. -/
def diskBefore : FileSystem :=
  toyDisk "" [("a.glsl", 1, "#include \"b.glsl\"\n"), ("b.glsl", 1, "old\n")]

/-- The same root after the included file was rewritten at a later time. -/
def diskAfter : FileSystem :=
  toyDisk "" [("a.glsl", 1, "#include \"b.glsl\"\n"), ("b.glsl", 2, "new\n")]

/-- A root that includes `a.glsl` and `b.glsl`, where `a.glsl` includes `b.glsl`. -/
def diamondDisk : FileSystem :=
  toyDisk "" [("r.glsl", 1, "#include \"a.glsl\"\n#include \"b.glsl\"\n"),
    ("a.glsl", 1, "#include \"b.glsl\"\n"), ("b.glsl", 1, "x\n")]

/-- A file `sub/c.glsl` that includes itself under the spelling `sub//c.glsl`. -/
def selfSpellingDisk : FileSystem :=
  toyDisk "" [("sub/c.glsl", 1, "#include \"sub//c.glsl\"\n")]

/-- A cache holding one entry, for `a.glsl`, older than the file of `markerDisk`. -/
def staleCache : PathKey → Option Source :=
  fun key => if key = toyElements "a.glsl".toList then some ⟨0, "stale\n".toList⟩ else none

/-! # Theorems -/

/-! ## The resolver -/

theorem findInSearchPaths_ok_of_first (fs : FileSystem) (path : Path) (pre : List Path)
    (root : Path) (post : List Path)
    (hpre : ∀ r ∈ pre, fs.pathExists (fs.join r path) = false)
    (hroot : fs.pathExists (fs.join root path) = true) :
    (findInSearchPaths fs path (pre ++ root :: post)).1 = .ok (fs.join root path) := by
  induction pre with
  | nil => simp [findInSearchPaths, hroot]
  | cons r pre ih =>
    have hr : fs.pathExists (fs.join r path) = false := hpre r (by simp)
    have ih' := ih (fun q hq => hpre q (by simp [hq]))
    simp [findInSearchPaths, hr, ih']

theorem findInSearchPaths_error_iff (fs : FileSystem) (path : Path) (roots : List Path)
    (e : ShaderPreprocessorExc) :
    (findInSearchPaths fs path roots).1 = .error e ↔
      e = .couldNotFind path ∧ ∀ r ∈ roots, fs.pathExists (fs.join r path) = false := by
  induction roots with
  | nil =>
    simp only [findInSearchPaths, Except.error.injEq, List.not_mem_nil, false_implies,
      implies_true, and_true]
    exact eq_comm
  | cons r roots ih =>
    by_cases hr : fs.pathExists (fs.join r path) = true
    · simp [findInSearchPaths, hr]
    · have hr' : fs.pathExists (fs.join r path) = false := by simpa using hr
      simp [findInSearchPaths, hr', ih]

theorem findFullPath_error_iff (fs : FileSystem) (roots : List Path) (path parentPath : Path)
    (e : ShaderPreprocessorExc) :
    (findFullPath fs roots path parentPath).1 = .error e ↔
      e = .couldNotFind path ∧ fs.pathExists (fs.join parentPath path) = false ∧
        ∀ r ∈ roots, fs.pathExists (fs.join r path) = false := by
  by_cases hp : fs.pathExists (fs.join parentPath path) = true
  · simp [findFullPath, hp]
  · have hp' : fs.pathExists (fs.join parentPath path) = false := by simpa using hp
    simp [findFullPath, hp', findInSearchPaths_error_iff]

theorem parseRecursive_succ (caching : Bool) (fs : FileSystem) (mSearchPaths : List Path)
    (fuel : Nat) (path parentPath : Path) (active : List Path) (st : State) :
    parseRecursive caching fs mSearchPaths (fuel + 1) path parentPath active st =
      if fs.elements path ∈ st.includeTree then
        some (.error (.circularInclude path), st, [.call path active])
      else
        match findFullPath fs mSearchPaths path parentPath with
        | (.error e, probes) =>
          some (.error e, { st with includeTree := fs.elements path :: st.includeTree },
            .call path active :: probes)
        | (.ok fullPath, probes) =>
          match (if caching then
              cacheLookup fs { st with includeTree := fs.elements path :: st.includeTree } path
                (fs.last_write_time fullPath) else none) with
          | some cached =>
            some (.ok cached.mString, { st with includeTree := fs.elements path :: st.includeTree },
              .call path active :: probes ++ (if caching then [.stat fullPath] else []))
          | none =>
            match fs.contents fullPath with
            | none =>
              some (.error (.failedToOpen fullPath),
                { st with includeTree := fs.elements path :: st.includeTree },
                (.call path active :: probes ++ (if caching then [.stat fullPath] else [])) ++
                  [.ifstream fullPath])
            | some content =>
              match scanLines
                  (fun captured s =>
                    parseRecursive caching fs mSearchPaths fuel captured
                      (fs.parent_path fullPath) (path :: active) s)
                  (getlines content) 1 [] { st with includeTree := fs.elements path :: st.includeTree }
                  ((.call path active :: probes ++ (if caching then [.stat fullPath] else [])) ++
                    [.ifstream fullPath]) with
              | none => none
              | some (.error e, st2, ev2) => some (.error e, st2, ev2)
              | some (.ok output, st2, ev2) =>
                if caching then
                  some (.ok output, cacheStore fs st2 path (fs.last_write_time fullPath) output, ev2)
                else some (.ok output, st2, ev2) := by
  rfl

/-- C4. The resolver returns `parentPath / path` when that exists; otherwise
`searchPath / path` for the first search path, in the configured order, for which
that exists; it throws exactly when none of them exists, and then the not-found
exception for the requested path; in that case `parseRecursive` throws and
returns no string. -/
theorem findFullPath_search_order (fs : FileSystem) (mSearchPaths : List Path)
    (path parentPath : Path) :
    (fs.pathExists (fs.join parentPath path) = true →
      (findFullPath fs mSearchPaths path parentPath).1 = .ok (fs.join parentPath path)) ∧
    (fs.pathExists (fs.join parentPath path) = false →
      ∀ (pre : List Path) (root : Path) (post : List Path),
        mSearchPaths = pre ++ root :: post →
        (∀ r ∈ pre, fs.pathExists (fs.join r path) = false) →
        fs.pathExists (fs.join root path) = true →
        (findFullPath fs mSearchPaths path parentPath).1 = .ok (fs.join root path)) ∧
    ((findFullPath fs mSearchPaths path parentPath).1 = .error (.couldNotFind path) ↔
      fs.pathExists (fs.join parentPath path) = false ∧
        ∀ r ∈ mSearchPaths, fs.pathExists (fs.join r path) = false) ∧
    (∀ e, (findFullPath fs mSearchPaths path parentPath).1 = .error e →
      e = .couldNotFind path) ∧
    (fs.pathExists (fs.join parentPath path) = false →
      (∀ r ∈ mSearchPaths, fs.pathExists (fs.join r path) = false) →
      ∀ (caching : Bool) (fuel : Nat) (active : List Path) (st : State),
        ∃ e st1 ev,
          parseRecursive caching fs mSearchPaths (fuel + 1) path parentPath active st =
            some (.error e, st1, ev)) := by
  refine ⟨?_, ?_, ?_, ?_, ?_⟩
  · intro h
    simp [findFullPath, h]
  · intro h pre root post hsp hpre hroot
    subst hsp
    simp [findFullPath, h, findInSearchPaths_ok_of_first fs path pre root post hpre hroot]
  · simp [findFullPath_error_iff]
  · intro e he
    exact ((findFullPath_error_iff fs mSearchPaths path parentPath e).1 he).1
  · intro hp hr caching fuel active st
    have herr : (findFullPath fs mSearchPaths path parentPath).1 = .error (.couldNotFind path) :=
      (findFullPath_error_iff fs mSearchPaths path parentPath _).2 ⟨rfl, hp, hr⟩
    rw [parseRecursive_succ]
    by_cases hin : fs.elements path ∈ st.includeTree
    · exact ⟨_, _, _, if_pos hin⟩
    · rw [if_neg hin]
      rcases hf : findFullPath fs mSearchPaths path parentPath with ⟨r, probes⟩
      rw [hf] at herr
      simp only at herr
      subst herr
      exact ⟨_, _, _, rfl⟩


/-! ## The include pattern -/

theorem matchStar_const {α : Type} (cls : Char → Bool) (x : α) (s : List Char) :
    ∃ pre, matchStar cls (fun _ => some x) s = some (pre, x) := by
  induction s with
  | nil => exact ⟨[], rfl⟩
  | cons c s ih =>
    obtain ⟨pre, hpre⟩ := ih
    by_cases hc : cls c = true
    · exact ⟨c :: pre, by simp [matchStar, hc, hpre]⟩
    · exact ⟨[], by simp [matchStar, hc]⟩

theorem matchStar_complete_aux {α : Type} (cls : Char → Bool) (k : List Char → Option α)
    (pre post : List Char) (r : α) (hall : ∀ x ∈ pre, cls x = true)
    (hk : k post = some r) : ∃ q, matchStar cls k (pre ++ post) = some q := by
  induction pre with
  | nil =>
    cases post with
    | nil => exact ⟨([], r), by simp [matchStar, hk]⟩
    | cons c t =>
      by_cases hc : cls c = true
      · cases hm : matchStar cls k t with
        | some q => exact ⟨(c :: q.1, q.2), by simp [matchStar, hc, hm]⟩
        | none => exact ⟨([], r), by simp [matchStar, hc, hm, hk]⟩
      · exact ⟨([], r), by simp [matchStar, hc, hk]⟩
  | cons d pre ih =>
    obtain ⟨q, hq⟩ := ih (fun x hx => hall x (List.mem_cons_of_mem _ hx))
    have hd : cls d = true := hall d (by simp)
    exact ⟨(d :: q.1, q.2), by simp [matchStar, hd, hq]⟩

theorem matchStar_sound {α : Type} (cls : Char → Bool) (k : List Char → Option α)
    (s pre : List Char) (r : α) (h : matchStar cls k s = some (pre, r)) :
    ∃ post, s = pre ++ post ∧ (∀ x ∈ pre, cls x = true) ∧ k post = some r ∧
      ∀ pre2 post2, s = pre2 ++ post2 → (∀ x ∈ pre2, cls x = true) →
        pre.length < pre2.length → k post2 = none := by
  induction s generalizing pre with
  | nil =>
    simp only [matchStar, Option.map_eq_some', Prod.mk.injEq] at h
    obtain ⟨a, ha, rfl, rfl⟩ := h
    refine ⟨[], rfl, by simp, ha, ?_⟩
    intro pre2 post2 h2 _ hlen
    have : pre2 = [] := by
      cases pre2 with
      | nil => rfl
      | cons _ _ => simp at h2
    subst this
    simp at hlen
  | cons c s ih =>
    have stop : (k (c :: s)).map (fun r => (([] : List Char), r)) = some (pre, r) →
        pre = [] ∧ k (c :: s) = some r := by
      intro h
      simp only [Option.map_eq_some', Prod.mk.injEq] at h
      obtain ⟨a, ha, rfl, rfl⟩ := h
      exact ⟨rfl, ha⟩
    by_cases hc : cls c = true
    · cases hm : matchStar cls k s with
      | some pr =>
        obtain ⟨p, q⟩ := pr
        simp only [matchStar, hc, if_true, hm, Option.some.injEq, Prod.mk.injEq] at h
        obtain ⟨rfl, rfl⟩ := h
        obtain ⟨post, hs, hall, hk, hmax⟩ := ih p hm
        refine ⟨post, by simp [hs], ?_, hk, ?_⟩
        · intro x hx
          rcases List.mem_cons.1 hx with rfl | hx
          · exact hc
          · exact hall x hx
        · intro pre2 post2 h2 hall2 hlen
          cases pre2 with
          | nil => simp at hlen
          | cons d pre2 =>
            simp only [List.cons_append, List.cons.injEq] at h2
            exact hmax pre2 post2 h2.2 (fun x hx => hall2 x (List.mem_cons_of_mem _ hx))
              (by simpa using hlen)
      | none =>
        simp only [matchStar, hc, if_true, hm] at h
        obtain ⟨rfl, hk⟩ := stop h
        refine ⟨c :: s, rfl, by simp, hk, ?_⟩
        intro pre2 post2 h2 hall2 hlen
        cases pre2 with
        | nil => simp at hlen
        | cons d pre2 =>
          simp only [List.cons_append, List.cons.injEq] at h2
          cases hk2 : k post2 with
          | none => rfl
          | some r2 =>
            obtain ⟨q, hq⟩ := matchStar_complete_aux cls k pre2 post2 r2
              (fun x hx => hall2 x (List.mem_cons_of_mem _ hx)) hk2
            rw [← h2.2, hm] at hq
            exact absurd hq (by simp)
    · simp only [matchStar, hc] at h
      obtain ⟨rfl, hk⟩ := stop h
      refine ⟨c :: s, rfl, by simp, hk, ?_⟩
      intro pre2 post2 h2 hall2 hlen
      cases pre2 with
      | nil => simp at hlen
      | cons d pre2 =>
        simp only [List.cons_append, List.cons.injEq] at h2
        have := hall2 d (by simp)
        rw [← h2.1] at this
        exact absurd this hc

theorem matchStar_complete {α : Type} (cls : Char → Bool) (k : List Char → Option α)
    (pre post : List Char) (r : α) (hall : ∀ x ∈ pre, cls x = true) (hk : k post = some r)
    (hmax : ∀ pre2 post2, pre ++ post = pre2 ++ post2 → (∀ x ∈ pre2, cls x = true) →
      pre.length < pre2.length → k post2 = none) :
    matchStar cls k (pre ++ post) = some (pre, r) := by
  obtain ⟨⟨p, q⟩, hq⟩ := matchStar_complete_aux cls k pre post r hall hk
  obtain ⟨post1, hs, hall1, hk1, hmax1⟩ := matchStar_sound cls k _ p q hq
  have hlen : p.length = pre.length := by
    rcases Nat.lt_trichotomy p.length pre.length with hlt | heq | hgt
    · have := hmax1 pre post rfl hall hlt
      rw [hk] at this
      exact absurd this (by simp)
    · exact heq
    · have := hmax p post1 hs hall1 hgt
      rw [hk1] at this
      exact absurd this (by simp)
  have hp : p = pre := by
    have h1 := congrArg (List.take pre.length) hs
    rw [List.take_left, ← hlen, List.take_left] at h1
    exact h1.symm
  subst hp
  have hpost : post = post1 := List.append_cancel_left hs
  subst hpost
  rw [hk] at hk1
  rw [hq]
  simp only [Option.some.injEq] at hk1
  rw [hk1]

theorem matchStar_replicate {α : Type} (cls : Char → Bool) (k : List Char → Option α) (b : Char)
    (hb : cls b = true) (hk : ∀ t, k (b :: t) = none) (rest : List Char)
    (hrest : ∀ a t, rest = a :: t → cls a = false) (n : Nat) :
    matchStar cls k (List.replicate n b ++ rest) =
      (k rest).map fun r => (List.replicate n b, r) := by
  induction n with
  | zero =>
    cases rest with
    | nil => rfl
    | cons a t => simp [matchStar, hrest a t rfl]
  | succ n ih =>
    rw [List.replicate_succ, List.cons_append, matchStar, if_pos hb, ih]
    cases hr : k rest with
    | none => simp [hk]
    | some r => simp

theorem matchAtoms_lit (c : Char) (atoms : List Atom) (s : List Char) :
    matchAtoms false (lit c :: atoms) (c :: s) = matchAtoms false atoms s := by
  simp [matchAtoms, lit]

theorem matchAtoms_lit_ne (c d : Char) (atoms : List Atom) (s : List Char) (h : d ≠ c) :
    matchAtoms false (lit c :: atoms) (d :: s) = none := by
  simp [matchAtoms, lit, h]

theorem matchAtoms_blank_star (atoms : List Atom) (n : Nat) (rest : List Char)
    (hk : ∀ t, matchAtoms false atoms (' ' :: t) = none)
    (hrest : ∀ a t, rest = a :: t → isBlank a = false) :
    matchAtoms false (⟨isBlank, .star, false⟩ :: atoms) (List.replicate n ' ' ++ rest) =
      matchAtoms false atoms rest := by
  simp only [matchAtoms, Bool.false_eq_true, if_false, List.nil_append]
  rw [matchStar_replicate isBlank _ ' ' rfl hk rest hrest n]
  cases matchAtoms false atoms rest <;> rfl

theorem matchAtoms_blank_plus (atoms : List Atom) (n : Nat) (rest : List Char)
    (hk : ∀ t, matchAtoms false atoms (' ' :: t) = none)
    (hrest : ∀ a t, rest = a :: t → isBlank a = false) :
    matchAtoms false (⟨isBlank, .plus, false⟩ :: atoms) (List.replicate (n + 1) ' ' ++ rest) =
      matchAtoms false atoms rest := by
  rw [List.replicate_succ, List.cons_append]
  simp only [matchAtoms, Bool.false_eq_true, if_false, List.nil_append]
  rw [if_pos (by rfl), matchStar_replicate isBlank _ ' ' rfl hk rest hrest n]
  cases matchAtoms false atoms rest <;> rfl

theorem isBlank_of_isOpenDelim (o : Char) (ho : isOpenDelim o = true) : isBlank o = false := by
  simp only [isOpenDelim, Bool.or_eq_true, beq_iff_eq] at ho
  rcases ho with rfl | rfl <;> rfl

theorem matchAtoms_open (o : Char) (atoms : List Atom) (s : List Char)
    (ho : isOpenDelim o = true) :
    matchAtoms false (⟨isOpenDelim, .one, false⟩ :: atoms) (o :: s) = matchAtoms false atoms s := by
  simp only [matchAtoms, ho, if_true, Bool.false_eq_true, if_false, List.nil_append]
  cases matchAtoms false atoms s <;> rfl

theorem matchAtoms_capture (atoms : List Atom) (s : List Char) :
    matchAtoms false (⟨isDot, .star, true⟩ :: atoms) s =
      (matchStar isDot (matchAtoms false atoms) s).map fun r => r.1 ++ r.2 := by
  simp only [matchAtoms, if_true]

theorem matchAtoms_close (s : List Char) :
    matchAtoms false [⟨isCloseDelim, .one, false⟩, ⟨isDot, .star, false⟩] s =
      match s with
      | [] => none
      | c :: _ => if isCloseDelim c = true then some [] else none := by
  cases s with
  | nil => simp [matchAtoms]
  | cons c t =>
    by_cases hc : isCloseDelim c = true
    · obtain ⟨pre, hpre⟩ := matchStar_const isDot ([] : List Char) t
      have hk : matchAtoms false [] = fun _ => some ([] : List Char) := by
        funext x
        simp [matchAtoms]
      simp [matchAtoms, hc, hk, hpre]
    · simp [matchAtoms, hc]

theorem regex_search_decomposed (i j k : Nat) (o : Char) (rest : List Char)
    (ho : isOpenDelim o = true) :
    regex_search sIncludeRegex
        (List.replicate i ' ' ++ '#' :: (List.replicate j ' ' ++
          ("include".toList ++ (List.replicate (k + 1) ' ' ++ o :: rest)))) =
      (matchStar isDot
        (matchAtoms false [⟨isCloseDelim, .one, false⟩, ⟨isDot, .star, false⟩]) rest).map
        fun r => r.1 ++ r.2 := by
  have hno : isBlank o = false := isBlank_of_isOpenDelim o ho
  unfold regex_search sIncludeRegex
  simp only
  rw [matchAtoms_blank_star _ i _ (fun t => matchAtoms_lit_ne _ _ _ _ (by decide))
    (by intro a t h; simp only [List.cons.injEq] at h; rw [← h.1]; rfl)]
  rw [matchAtoms_lit]
  rw [matchAtoms_blank_star _ j _ (fun t => matchAtoms_lit_ne _ _ _ _ (by decide))
    (by intro a t h; simp only [String.toList, List.cons_append, List.cons.injEq] at h
        rw [← h.1]; rfl)]
  simp only [String.toList, List.cons_append, List.nil_append]
  rw [matchAtoms_lit, matchAtoms_lit, matchAtoms_lit, matchAtoms_lit, matchAtoms_lit,
    matchAtoms_lit, matchAtoms_lit]
  rw [matchAtoms_blank_plus _ k _ (by intro t; simp [matchAtoms, isOpenDelim])
    (by intro a t h; simp only [List.cons.injEq] at h; rw [← h.1]; exact hno)]
  rw [matchAtoms_open o _ _ ho, matchAtoms_capture]

theorem replicate_of_all_blank (pre : List Char) (h : ∀ x ∈ pre, isBlank x = true) :
    pre = List.replicate pre.length ' ' := by
  induction pre with
  | nil => rfl
  | cons c pre ih =>
    have hc : c = ' ' := by
      have := h c (by simp)
      simpa [isBlank] using this
    rw [List.length_cons, List.replicate_succ, ← ih (fun x hx => h x (List.mem_cons_of_mem _ hx)),
      hc]

theorem matchAtoms_blank_star_inv (atoms : List Atom) (s cap : List Char)
    (h : matchAtoms false (⟨isBlank, .star, false⟩ :: atoms) s = some cap) :
    ∃ n rest, s = List.replicate n ' ' ++ rest ∧ matchAtoms false atoms rest = some cap := by
  simp only [matchAtoms, Bool.false_eq_true, if_false, List.nil_append,
    Option.map_eq_some'] at h
  obtain ⟨⟨pre, r⟩, hm, hr⟩ := h
  obtain ⟨post, hs, hall, hk, -⟩ := matchStar_sound _ _ _ _ _ hm
  refine ⟨pre.length, post, ?_, ?_⟩
  · rw [← replicate_of_all_blank pre hall]
    exact hs
  · simp only at hr
    rw [← hr]
    exact hk

theorem matchAtoms_blank_plus_inv (atoms : List Atom) (s cap : List Char)
    (h : matchAtoms false (⟨isBlank, .plus, false⟩ :: atoms) s = some cap) :
    ∃ n rest, s = List.replicate (n + 1) ' ' ++ rest ∧
      matchAtoms false atoms rest = some cap := by
  cases s with
  | nil => simp [matchAtoms] at h
  | cons c t =>
    by_cases hc : isBlank c = true
    · simp only [matchAtoms, hc, if_true, Bool.false_eq_true, if_false, List.nil_append,
        Option.map_eq_some'] at h
      obtain ⟨⟨pre, r⟩, hm, hr⟩ := h
      obtain ⟨post, hs, hall, hk, -⟩ := matchStar_sound _ _ _ _ _ hm
      have hc2 : c = ' ' := by simpa [isBlank] using hc
      refine ⟨pre.length, post, ?_, ?_⟩
      · rw [List.replicate_succ, List.cons_append, ← replicate_of_all_blank pre hall, hs, hc2]
      · simp only at hr
        rw [← hr]
        exact hk
    · simp [matchAtoms, hc] at h

theorem matchAtoms_lit_inv (c : Char) (atoms : List Atom) (s cap : List Char)
    (h : matchAtoms false (lit c :: atoms) s = some cap) :
    ∃ t, s = c :: t ∧ matchAtoms false atoms t = some cap := by
  cases s with
  | nil => simp [matchAtoms, lit] at h
  | cons d t =>
    by_cases hd : d = c
    · subst hd
      rw [matchAtoms_lit] at h
      exact ⟨t, rfl, h⟩
    · rw [matchAtoms_lit_ne _ _ _ _ hd] at h
      exact absurd h (by simp)

theorem matchAtoms_open_inv (atoms : List Atom) (s cap : List Char)
    (h : matchAtoms false (⟨isOpenDelim, .one, false⟩ :: atoms) s = some cap) :
    ∃ o t, s = o :: t ∧ isOpenDelim o = true ∧ matchAtoms false atoms t = some cap := by
  cases s with
  | nil => simp [matchAtoms] at h
  | cons o t =>
    by_cases ho : isOpenDelim o = true
    · rw [matchAtoms_open o _ _ ho] at h
      exact ⟨o, t, rfl, ho, h⟩
    · simp [matchAtoms, ho] at h

theorem regex_search_inv (line cap : List Char)
    (h : regex_search sIncludeRegex line = some cap) :
    ∃ (i j k : Nat) (o : Char) (rest : List Char),
      line = List.replicate i ' ' ++ '#' :: (List.replicate j ' ' ++
        ("include".toList ++ (List.replicate (k + 1) ' ' ++ o :: rest))) ∧
      isOpenDelim o = true := by
  unfold regex_search sIncludeRegex at h
  simp only at h
  obtain ⟨i, s1, rfl, h1⟩ := matchAtoms_blank_star_inv _ _ _ h
  obtain ⟨s2, rfl, h2⟩ := matchAtoms_lit_inv _ _ _ _ h1
  obtain ⟨j, s3, rfl, h3⟩ := matchAtoms_blank_star_inv _ _ _ h2
  obtain ⟨s4, rfl, h4⟩ := matchAtoms_lit_inv _ _ _ _ h3
  obtain ⟨s5, rfl, h5⟩ := matchAtoms_lit_inv _ _ _ _ h4
  obtain ⟨s6, rfl, h6⟩ := matchAtoms_lit_inv _ _ _ _ h5
  obtain ⟨s7, rfl, h7⟩ := matchAtoms_lit_inv _ _ _ _ h6
  obtain ⟨s8, rfl, h8⟩ := matchAtoms_lit_inv _ _ _ _ h7
  obtain ⟨s9, rfl, h9⟩ := matchAtoms_lit_inv _ _ _ _ h8
  obtain ⟨s10, rfl, h10⟩ := matchAtoms_lit_inv _ _ _ _ h9
  obtain ⟨k, s11, rfl, h11⟩ := matchAtoms_blank_plus_inv _ _ _ h10
  obtain ⟨o, rest, rfl, ho, -⟩ := matchAtoms_open_inv _ _ _ h11
  exact ⟨i, j, k, o, rest, rfl, ho⟩

theorem capture_spec (rest cap : List Char) :
    (matchStar isDot
        (matchAtoms false [⟨isCloseDelim, .one, false⟩, ⟨isDot, .star, false⟩]) rest).map
        (fun r => r.1 ++ r.2) = some cap ↔
      ∃ c tail, rest = cap ++ c :: tail ∧ isCloseDelim c = true ∧
        (∀ x ∈ cap, isDot x = true) ∧
        ∀ cap2 c2 tail2, rest = cap2 ++ c2 :: tail2 → isCloseDelim c2 = true →
          (∀ x ∈ cap2, isDot x = true) → cap2.length ≤ cap.length := by
  constructor
  · intro h
    simp only [Option.map_eq_some'] at h
    obtain ⟨⟨p, q⟩, hm, hpq⟩ := h
    obtain ⟨post, hs, hall, hk, hmax⟩ := matchStar_sound _ _ _ _ _ hm
    rw [matchAtoms_close] at hk
    cases post with
    | nil => simp at hk
    | cons c tail =>
      by_cases hc : isCloseDelim c = true
      · simp only [hc, if_true, Option.some.injEq] at hk
        subst hk
        simp only [List.append_nil] at hpq
        subst hpq
        refine ⟨c, tail, hs, hc, hall, ?_⟩
        intro cap2 c2 tail2 h2 hc2 hall2
        by_contra hlt
        have := hmax cap2 (c2 :: tail2) h2 hall2 (by omega)
        rw [matchAtoms_close] at this
        simp [hc2] at this
      · simp [hc] at hk
  · rintro ⟨c, tail, rfl, hc, hall, hmax⟩
    rw [matchStar_complete isDot _ cap (c :: tail) [] hall]
    · simp
    · rw [matchAtoms_close]
      simp [hc]
    · intro pre2 post2 h2 hall2 hlen
      rw [matchAtoms_close]
      cases post2 with
      | nil => rfl
      | cons c2 t2 =>
        by_cases hc2 : isCloseDelim c2 = true
        · have := hmax pre2 c2 t2 h2 hc2 hall2
          omega
        · simp [hc2]

theorem isOpenDelim_iff (o : Char) : isOpenDelim o = true ↔ (o = '"' ∨ o = '<') := by
  simp [isOpenDelim]

theorem isCloseDelim_iff (c : Char) : isCloseDelim c = true ↔ (c = '"' ∨ c = '>') := by
  simp [isCloseDelim]

theorem isDot_iff (x : Char) : isDot x = true ↔ (x ≠ '\n' ∧ x ≠ '\r') := by
  simp [isDot]

theorem regex_search_some_iff (line cap : List Char) :
    regex_search sIncludeRegex line = some cap ↔
      IsIncludeDirective line cap ∧
        ∀ cap2, IsIncludeDirective line cap2 → cap2.length ≤ cap.length := by
  constructor
  · intro h
    obtain ⟨i, j, k, o, rest, hline, ho⟩ := regex_search_inv line cap h
    have h1 := h
    rw [hline, regex_search_decomposed i j k o rest ho] at h1
    obtain ⟨c, tail, hrest, hc, hall, -⟩ := (capture_spec rest cap).1 h1
    refine ⟨⟨i, j, k, o, c, tail, ?_, (isOpenDelim_iff o).1 ho, (isCloseDelim_iff c).1 hc,
      fun x hx => (isDot_iff x).1 (hall x hx)⟩, ?_⟩
    · rw [hline, hrest]
    · rintro cap2 ⟨i2, j2, k2, o2, c2, tail2, hline2, ho2, hc2, hall2⟩
      have h2 := h
      rw [hline2, regex_search_decomposed i2 j2 k2 o2 _ ((isOpenDelim_iff o2).2 ho2)] at h2
      obtain ⟨-, -, -, -, -, hmax⟩ := (capture_spec _ cap).1 h2
      exact hmax cap2 c2 tail2 rfl ((isCloseDelim_iff c2).2 hc2)
        (fun x hx => (isDot_iff x).2 (hall2 x hx))
  · rintro ⟨⟨i, j, k, o, c, tail, hline, ho, hc, hall⟩, hmax⟩
    rw [hline, regex_search_decomposed i j k o _ ((isOpenDelim_iff o).2 ho)]
    refine (capture_spec _ cap).2 ⟨c, tail, rfl, (isCloseDelim_iff c).2 hc,
      fun x hx => (isDot_iff x).2 (hall x hx), ?_⟩
    intro cap2 c2 tail2 h2 hc2 hall2
    refine hmax cap2 ⟨i, j, k, o, c2, tail2, ?_, ho, (isCloseDelim_iff c2).1 hc2,
      fun x hx => (isDot_iff x).1 (hall2 x hx)⟩
    rw [hline, h2]

theorem regex_search_isSome_iff (line : List Char) :
    (regex_search sIncludeRegex line).isSome = true ↔ ∃ cap, IsIncludeDirective line cap := by
  constructor
  · intro h
    obtain ⟨cap, hcap⟩ := Option.isSome_iff_exists.1 h
    exact ⟨cap, ((regex_search_some_iff line cap).1 hcap).1⟩
  · rintro ⟨cap, i, j, k, o, c, tail, hline, ho, hc, hall⟩
    rw [hline, regex_search_decomposed i j k o _ ((isOpenDelim_iff o).2 ho)]
    obtain ⟨q, hq⟩ := matchStar_complete_aux isDot
      (matchAtoms false [⟨isCloseDelim, .one, false⟩, ⟨isDot, .star, false⟩]) cap (c :: tail) []
      (fun x hx => (isDot_iff x).2 (hall x hx))
      (by rw [matchAtoms_close]; simp [(isCloseDelim_iff c).2 hc])
    rw [hq]
    rfl

/-- C7 (amended). A line is an include directive for the expander exactly when it
has the form blanks, `#`, blanks, `include`, one or more blanks, `"` or `<`, a
text without line terminator, `"` or `>`, anything; only the space character
counts as a blank.  The path requested is the longest such text (the capture is
greedy), whichever the two delimiters are.  A line of another form is copied
with a newline. -/
theorem include_directive_grammar (line : List Char) :
    ((regex_search sIncludeRegex line).isSome = true ↔ ∃ cap, IsIncludeDirective line cap) ∧
    (∀ cap, regex_search sIncludeRegex line = some cap ↔
      IsIncludeDirective line cap ∧
        ∀ cap2, IsIncludeDirective line cap2 → cap2.length ≤ cap.length) ∧
    (∀ (recurse : Path → State → Option Outcome) (rest : List (List Char)) (n : Nat)
        (output : List Char) (st : State) (ev : List Event),
      (¬ ∃ cap, IsIncludeDirective line cap) →
        scanLines recurse (line :: rest) n output st ev =
          scanLines recurse rest (n + 1) (output ++ line ++ ['\n']) st ev) ∧
    (∀ (recurse : Path → State → Option Outcome) (rest : List (List Char)) (n : Nat)
        (output : List Char) (st : State) (ev : List Event) (cap : Path),
      IsIncludeDirective line cap →
      (∀ cap2, IsIncludeDirective line cap2 → cap2.length ≤ cap.length) →
        scanLines recurse (line :: rest) n output st ev =
          match recurse cap st with
          | none => none
          | some (.error e, st2, ev2) => some (.error e, st2, ev ++ ev2)
          | some (.ok text, st2, ev2) =>
            scanLines recurse rest (n + 1) (output ++ text ++ lineMarker n ++ ['\n']) st2
              (ev ++ ev2)) := by
  refine ⟨regex_search_isSome_iff line, regex_search_some_iff line, ?_, ?_⟩
  · intro recurse rest n output st ev hno
    have hnone : regex_search sIncludeRegex line = none := by
      cases hm : regex_search sIncludeRegex line with
      | none => rfl
      | some cap =>
        exact absurd ((regex_search_isSome_iff line).1 (by simp [hm])) hno
    simp only [scanLines, hnone]
  · intro recurse rest n output st ev cap hcap hmax
    have hsome := (regex_search_some_iff line cap).2 ⟨hcap, hmax⟩
    simp only [scanLines, hsome]

/-! ## Reading lines -/

theorem unlines_getlinesFrom (cur s : List Char) :
    unlines (getlinesFrom cur s) =
      if s = [] then (if cur = [] then [] else cur ++ ['\n'])
      else cur ++ (if s.getLast? = some '\n' then s else s ++ ['\n']) := by
  induction s generalizing cur with
  | nil =>
    cases cur with
    | nil => rfl
    | cons a cur => simp [getlinesFrom, unlines]
  | cons c s ih =>
    by_cases hc : c = '\n'
    · subst hc
      simp only [getlinesFrom, beq_self_eq_true, if_true, unlines, ih []]
      cases s with
      | nil => simp
      | cons d s =>
        simp only [List.getLast?_cons_cons, reduceCtorEq, if_false, List.nil_append]
        split <;> simp
    · have hb : (c == '\n') = false := by simpa using hc
      simp only [getlinesFrom, hb, Bool.false_eq_true, if_false, ih (cur ++ [c])]
      cases s with
      | nil => simp [hc]
      | cons d s =>
        simp only [List.getLast?_cons_cons, reduceCtorEq, if_false, List.append_assoc,
          List.singleton_append]
        split <;> simp

theorem unlines_getlines (content : List Char) :
    unlines (getlines content) =
      if content = [] ∨ content.getLast? = some '\n' then content else content ++ ['\n'] := by
  rw [getlines, unlines_getlinesFrom]
  by_cases h : content = []
  · simp [h]
  · simp [h]

theorem scanLines_no_directive (recurse : Path → State → Option Outcome)
    (lines : List (List Char)) (hno : ∀ line ∈ lines, regex_search sIncludeRegex line = none)
    (n : Nat) (output : List Char) (st : State) (ev : List Event) :
    scanLines recurse lines n output st ev = some (.ok (output ++ unlines lines), st, ev) := by
  induction lines generalizing n output with
  | nil => simp [scanLines, unlines]
  | cons line rest ih =>
    have h1 : regex_search sIncludeRegex line = none := hno line (by simp)
    simp only [scanLines, h1]
    rw [ih (fun l hl => hno l (List.mem_cons_of_mem _ hl))]
    simp [unlines]

theorem cacheLookup_none (fs : FileSystem) (st : State) (path : Path) (t : Int)
    (h : st.mCachedSources (fs.elements path) = none) : cacheLookup fs st path t = none := by
  simp [cacheLookup, h]

/-- C6. A resolvable, readable file without include directives, parsed with an empty
cache, comes back as its lines each followed by one newline: its bytes unchanged
when they are empty or end in a newline, its bytes plus one newline otherwise. -/
theorem parse_no_include (fs : FileSystem) (mSearchPaths : List Path) (fuel : Nat)
    (path fullPath : Path) (content : List Char)
    (hresolve : (findFullPath fs mSearchPaths path []).1 = .ok fullPath)
    (hopen : fs.contents fullPath = some content)
    (hno : ∀ line ∈ getlines content, regex_search sIncludeRegex line = none) :
    (parse true fs mSearchPaths (fuel + 1) noCache path).map (fun o => o.1) =
        some (.ok (unlines (getlines content))) ∧
      unlines (getlines content) =
        (if content = [] ∨ content.getLast? = some '\n' then content else content ++ ['\n']) ∧
      (content = [] → unlines (getlines content) = []) := by
  rcases hf : findFullPath fs mSearchPaths path [] with ⟨r, probes⟩
  rw [hf] at hresolve
  simp only at hresolve
  subst hresolve
  refine ⟨?_, unlines_getlines content, ?_⟩
  · rw [parse, parseRecursive_succ, if_neg (by simp), hf]
    simp only [if_true]
    rw [cacheLookup_none _ _ _ _ rfl]
    simp only [hopen]
    rw [scanLines_no_directive _ _ hno]
    simp only [if_true, List.nil_append, Option.map_some']
  · intro h
    rw [unlines_getlines, h]
    simp

/-- The witness of `parse_no_include`: a two-line file whose last line has no newline. -/
theorem parse_no_include_witness :
    (parse true (toyDisk "" [("a.glsl", 1, "x\ny")]) [] 1 noCache "a.glsl".toList).map
        (fun o => o.1) = some (.ok (unlines (getlines "x\ny".toList))) ∧
      unlines (getlines "x\ny".toList) =
        (if "x\ny".toList = [] ∨ "x\ny".toList.getLast? = some '\n' then "x\ny".toList
          else "x\ny".toList ++ ['\n']) ∧
      ("x\ny".toList = [] → unlines (getlines "x\ny".toList) = []) :=
  parse_no_include (toyDisk "" [("a.glsl", 1, "x\ny")]) [] 0 "a.glsl".toList "a.glsl".toList
    "x\ny".toList rfl rfl (by decide)

/-! ## Case analysis of one call -/

theorem parseRecursive_inv (caching : Bool) (fs : FileSystem) (mSearchPaths : List Path)
    (fuel : Nat) (path parentPath : Path) (active : List Path) (st : State)
    (res : Except ShaderPreprocessorExc (List Char)) (st2 : State) (ev : List Event)
    (h : parseRecursive caching fs mSearchPaths (fuel + 1) path parentPath active st =
      some (res, st2, ev)) :
    (fs.elements path ∈ st.includeTree ∧ res = .error (.circularInclude path) ∧ st2 = st ∧
      ev = [.call path active]) ∨
    (fs.elements path ∉ st.includeTree ∧
      ((∃ e probes, findFullPath fs mSearchPaths path parentPath = (.error e, probes) ∧
          res = .error e ∧ st2 = entered fs st path ∧ ev = .call path active :: probes) ∨
       (∃ fullPath probes,
          findFullPath fs mSearchPaths path parentPath = (.ok fullPath, probes) ∧
          ((∃ cached, caching = true ∧
              cacheLookup fs (entered fs st path) path (fs.last_write_time fullPath) = some cached ∧
              res = .ok cached.mString ∧ st2 = entered fs st path ∧
              ev = preamble caching path active probes fullPath) ∨
           ((caching = true →
              cacheLookup fs (entered fs st path) path (fs.last_write_time fullPath) = none) ∧
            ((fs.contents fullPath = none ∧ res = .error (.failedToOpen fullPath) ∧
                st2 = entered fs st path ∧
                ev = preamble caching path active probes fullPath ++ [.ifstream fullPath]) ∨
             (∃ content r s, fs.contents fullPath = some content ∧
                scanLines
                  (fun captured s =>
                    parseRecursive caching fs mSearchPaths fuel captured
                      (fs.parent_path fullPath) (path :: active) s)
                  (getlines content) 1 [] (entered fs st path)
                  (preamble caching path active probes fullPath ++ [.ifstream fullPath]) =
                    some (r, s, ev) ∧
                ((∃ e, r = .error e ∧ res = .error e ∧ st2 = s) ∨
                 (∃ output, r = .ok output ∧ res = .ok output ∧
                    st2 = if caching then
                      cacheStore fs s path (fs.last_write_time fullPath) output else s))))))))) := by
  rw [parseRecursive_succ] at h
  by_cases hin : fs.elements path ∈ st.includeTree
  · rw [if_pos hin] at h
    simp only [Option.some.injEq, Prod.mk.injEq] at h
    obtain ⟨rfl, rfl, rfl⟩ := h
    exact Or.inl ⟨hin, rfl, rfl, rfl⟩
  · rw [if_neg hin] at h
    refine Or.inr ⟨hin, ?_⟩
    rcases hf : findFullPath fs mSearchPaths path parentPath with ⟨r, probes⟩
    rw [hf] at h
    cases r with
    | error e =>
      simp only [Option.some.injEq, Prod.mk.injEq] at h
      obtain ⟨rfl, rfl, rfl⟩ := h
      exact Or.inl ⟨e, probes, rfl, rfl, rfl, rfl⟩
    | ok fullPath =>
      refine Or.inr ⟨fullPath, probes, rfl, ?_⟩
      simp only at h
      cases hl : (if caching then
          cacheLookup fs { st with includeTree := fs.elements path :: st.includeTree } path
            (fs.last_write_time fullPath) else none) with
      | some cached =>
        rw [hl] at h
        simp only [Option.some.injEq, Prod.mk.injEq] at h
        obtain ⟨rfl, rfl, rfl⟩ := h
        cases caching with
        | false => simp at hl
        | true => exact Or.inl ⟨cached, rfl, by simpa using hl, rfl, rfl, rfl⟩
      | none =>
        rw [hl] at h
        refine Or.inr ⟨?_, ?_⟩
        · intro hc
          subst hc
          simpa using hl
        · cases hcont : fs.contents fullPath with
          | none =>
            rw [hcont] at h
            simp only [Option.some.injEq, Prod.mk.injEq] at h
            obtain ⟨rfl, rfl, rfl⟩ := h
            exact Or.inl ⟨rfl, rfl, rfl, rfl⟩
          | some content =>
            rw [hcont] at h
            simp only at h
            refine Or.inr ⟨content, ?_⟩
            cases hs : scanLines
                  (fun captured s =>
                    parseRecursive caching fs mSearchPaths fuel captured
                      (fs.parent_path fullPath) (path :: active) s)
                  (getlines content) 1 [] { st with includeTree := fs.elements path :: st.includeTree }
                  ((.call path active :: probes ++ (if caching then [.stat fullPath] else [])) ++
                    [.ifstream fullPath]) with
            | none =>
              rw [hs] at h
              exact absurd h (by simp)
            | some o =>
              obtain ⟨r, s, e2⟩ := o
              rw [hs] at h
              cases r with
              | error e =>
                simp only [Option.some.injEq, Prod.mk.injEq] at h
                obtain ⟨rfl, rfl, rfl⟩ := h
                exact ⟨_, _, rfl, hs, Or.inl ⟨e, rfl, rfl, rfl⟩⟩
              | ok output =>
                simp only at h
                cases caching with
                | false =>
                  simp only [Bool.false_eq_true, if_false, Option.some.injEq,
                    Prod.mk.injEq] at h
                  obtain ⟨rfl, rfl, rfl⟩ := h
                  exact ⟨_, _, rfl, hs, Or.inr ⟨output, rfl, rfl, rfl⟩⟩
                | true =>
                  simp only [if_true, Option.some.injEq, Prod.mk.injEq] at h
                  obtain ⟨rfl, rfl, rfl⟩ := h
                  exact ⟨_, _, rfl, hs, Or.inr ⟨output, rfl, rfl, rfl⟩⟩

/-! ## Events and the chain -/

theorem replay_append (fs : FileSystem) (c : List PathKey) (e1 e2 : List Event) :
    replay fs c (e1 ++ e2) = (replay fs c e1).bind fun c1 => replay fs c1 e2 := by
  induction e1 generalizing c with
  | nil => rfl
  | cons e e1 ih =>
    cases e with
    | call p a =>
      by_cases hp : fs.elements p ∈ c
      · simp [replay, hp]
      · simp [replay, hp, ih]
    | probe f => simpa [replay] using ih c
    | stat f => simpa [replay] using ih c
    | ifstream f => simpa [replay] using ih c

theorem activeInChain_append (fs : FileSystem) (c c1 : List PathKey) (e1 e2 : List Event)
    (h : replay fs c e1 = some c1) :
    activeInChain fs c (e1 ++ e2) ↔ activeInChain fs c e1 ∧ activeInChain fs c1 e2 := by
  induction e1 generalizing c with
  | nil =>
    simp only [replay, Option.some.injEq] at h
    subst h
    simp [activeInChain]
  | cons e e1 ih =>
    cases e with
    | call p a =>
      by_cases hp : fs.elements p ∈ c
      · simp [replay, hp] at h
      · simp only [replay, hp, if_false] at h
        simp [activeInChain, ih _ h, and_assoc]
    | probe f => simpa [replay, activeInChain] using ih c (by simpa [replay] using h)
    | stat f => simpa [replay, activeInChain] using ih c (by simpa [replay] using h)
    | ifstream f => simpa [replay, activeInChain] using ih c (by simpa [replay] using h)

theorem replay_calls (fs : FileSystem) (c c1 : List PathKey) (ev : List Event)
    (h : replay fs c ev = some c1) :
    c1 = ((calls ev).map fs.elements).reverse ++ c ∧
      c1.length = c.length + (calls ev).length ∧
      (c.Nodup → c1.Nodup) := by
  induction ev generalizing c with
  | nil =>
    simp only [replay, Option.some.injEq] at h
    subst h
    simp [calls]
  | cons e ev ih =>
    cases e with
    | call p a =>
      by_cases hp : fs.elements p ∈ c
      · simp [replay, hp] at h
      · simp only [replay, hp, if_false] at h
        obtain ⟨h1, h2, h3⟩ := ih _ h
        refine ⟨by simp [calls, h1], by simp [calls, h2]; omega, ?_⟩
        intro hc
        exact h3 (List.nodup_cons.2 ⟨hp, hc⟩)
    | probe f => simpa [replay, calls] using ih c (by simpa [replay] using h)
    | stat f => simpa [replay, calls] using ih c (by simpa [replay] using h)
    | ifstream f => simpa [replay, calls] using ih c (by simpa [replay] using h)

theorem replay_subset (fs : FileSystem) (c c1 : List PathKey) (ev : List Event)
    (h : replay fs c ev = some c1) :
    ∀ q ∈ c, q ∈ c1 := by
  intro q hq
  rw [(replay_calls fs c c1 ev h).1]
  exact List.mem_append_right _ hq

theorem replay_split (fs : FileSystem) (c c1 : List PathKey) (T1 T2 : List Event) (p : Path)
    (a : List Path) (h : replay fs c (T1 ++ .call p a :: T2) = some c1) :
    fs.elements p ∉ c ∧ fs.elements p ∉ (calls T1).map fs.elements := by
  rw [replay_append] at h
  cases h1 : replay fs c T1 with
  | none => simp [h1] at h
  | some c2 =>
    rw [h1] at h
    simp only [Option.some_bind, replay] at h
    by_cases hp : fs.elements p ∈ c2
    · simp [hp] at h
    · have hc2 := (replay_calls fs c c2 T1 h1).1
      rw [hc2] at hp
      simp only [List.mem_append, List.mem_reverse, not_or] at hp
      exact ⟨hp.2, hp.1⟩

theorem replay_of_no_calls (fs : FileSystem) (c : List PathKey) (ev : List Event)
    (h : calls ev = []) : replay fs c ev = some c ∧ activeInChain fs c ev := by
  induction ev with
  | nil => exact ⟨rfl, trivial⟩
  | cons e ev ih =>
    cases e with
    | call p a => simp [calls] at h
    | probe f => simpa [replay, activeInChain] using ih (by simpa [calls] using h)
    | stat f => simpa [replay, activeInChain] using ih (by simpa [calls] using h)
    | ifstream f => simpa [replay, activeInChain] using ih (by simpa [calls] using h)

theorem calls_append (e1 e2 : List Event) : calls (e1 ++ e2) = calls e1 ++ calls e2 := by
  induction e1 with
  | nil => rfl
  | cons e e1 ih => cases e <;> simp [calls, ih]

theorem findInSearchPaths_events (fs : FileSystem) (path : Path) (roots : List Path) :
    calls (findInSearchPaths fs path roots).2 = [] ∧
      opened (findInSearchPaths fs path roots).2 = [] := by
  induction roots with
  | nil => exact ⟨rfl, rfl⟩
  | cons r roots ih =>
    by_cases hr : fs.pathExists (fs.join r path) = true
    · simp [findInSearchPaths, hr, calls, opened]
    · simp [findInSearchPaths, hr, calls, opened, ih]

theorem findFullPath_events (fs : FileSystem) (roots : List Path) (path parentPath : Path) :
    calls (findFullPath fs roots path parentPath).2 = [] ∧
      opened (findFullPath fs roots path parentPath).2 = [] := by
  by_cases hp : fs.pathExists (fs.join parentPath path) = true
  · simp [findFullPath, hp, calls, opened]
  · simp [findFullPath, hp, calls, opened, findInSearchPaths_events]

theorem ChainInv_append (fs : FileSystem) (c c1 c2 : List PathKey) (e1 e2 : List Event)
    (res : Except ShaderPreprocessorExc (List Char)) (h1 : replay fs c e1 = some c1)
    (h2 : ChainInv fs c1 res c2 e2) : ChainInv fs c res c2 (e1 ++ e2) := by
  rcases h2 with h2 | ⟨T, p, a, rfl, hT, hp, hres⟩
  · left
    rw [replay_append, h1]
    exact h2
  · right
    refine ⟨e1 ++ T, p, a, by simp, ?_, hp, hres⟩
    rw [replay_append, h1]
    exact hT

theorem ChainInv_ok (fs : FileSystem) (c c2 : List PathKey) (ev : List Event)
    (text : List Char) (h : ChainInv fs c (.ok text) c2 ev) : replay fs c ev = some c2 := by
  rcases h with h | ⟨T, p, a, -, -, -, hres⟩
  · exact h
  · exact absurd hres (by simp)

/-- What the line loop inherits from the recursive calls it makes. -/
theorem scanLines_chain (fs : FileSystem) (recurse : Path → State → Option Outcome)
    (act : List Path)
    (hrec : ∀ cap s res s2 e, recurse cap s = some (res, s2, e) →
      ChainInv fs s.includeTree res s2.includeTree e ∧
        ((∀ q ∈ act, fs.elements q ∈ s.includeTree) → activeInChain fs s.includeTree e))
    (lines : List (List Char)) (n : Nat) (output : List Char) (st : State) (ev0 : List Event)
    (res : Except ShaderPreprocessorExc (List Char)) (st2 : State) (ev : List Event)
    (h : scanLines recurse lines n output st ev0 = some (res, st2, ev)) :
    ∃ new, ev = ev0 ++ new ∧ ChainInv fs st.includeTree res st2.includeTree new ∧
      ((∀ q ∈ act, fs.elements q ∈ st.includeTree) →
        activeInChain fs st.includeTree new) := by
  induction lines generalizing n output st ev0 with
  | nil =>
    simp only [scanLines, Option.some.injEq, Prod.mk.injEq] at h
    obtain ⟨rfl, rfl, rfl⟩ := h
    exact ⟨[], by simp, Or.inl rfl, fun _ => trivial⟩
  | cons line rest ih =>
    cases hm : regex_search sIncludeRegex line with
    | none =>
      simp only [scanLines, hm] at h
      exact ih _ _ _ _ h
    | some cap =>
      simp only [scanLines, hm] at h
      cases hr : recurse cap st with
      | none => simp [hr] at h
      | some o =>
        obtain ⟨r1, s1, e1⟩ := o
        obtain ⟨hinv, hact⟩ := hrec cap st r1 s1 e1 hr
        rw [hr] at h
        cases r1 with
        | error e =>
          simp only [Option.some.injEq, Prod.mk.injEq] at h
          obtain ⟨rfl, rfl, rfl⟩ := h
          exact ⟨e1, rfl, hinv, hact⟩
        | ok text =>
          simp only at h
          obtain ⟨new, hev, hinv2, hact2⟩ := ih _ _ _ _ h
          have hrep := ChainInv_ok _ _ _ _ _ hinv
          refine ⟨e1 ++ new, by simp [hev], ChainInv_append _ _ _ _ _ _ _ hrep hinv2, ?_⟩
          intro hq
          rw [activeInChain_append _ _ _ _ _ hrep]
          exact ⟨hact hq, hact2 fun q hqa => replay_subset _ _ _ _ hrep _ (hq q hqa)⟩

/-- The events of every call agree with its chain, and the frames an entry
reports as running are in the chain. -/
theorem parseRecursive_chain (caching : Bool) (fs : FileSystem) (mSearchPaths : List Path)
    (fuel : Nat) (path parentPath : Path) (active : List Path) (st : State)
    (res : Except ShaderPreprocessorExc (List Char)) (st2 : State) (ev : List Event)
    (h : parseRecursive caching fs mSearchPaths fuel path parentPath active st =
      some (res, st2, ev)) :
    ChainInv fs st.includeTree res st2.includeTree ev ∧
      ((∀ q ∈ active, fs.elements q ∈ st.includeTree) →
        activeInChain fs st.includeTree ev) := by
  induction fuel generalizing path parentPath active st res st2 ev with
  | zero => simp [parseRecursive] at h
  | succ fuel ih =>
    rcases parseRecursive_inv _ _ _ _ _ _ _ _ _ _ _ h with
      ⟨hin, rfl, rfl, rfl⟩ | ⟨hin, hcase⟩
    · refine ⟨Or.inr ⟨[], path, active, rfl, rfl, hin, rfl⟩, ?_⟩
      intro hq
      exact ⟨hq, trivial⟩
    · have hpre : ∀ (probes : List Event) (tl : List Event), calls probes = [] →
          calls tl = [] →
          replay fs st.includeTree (.call path active :: probes ++ tl) =
            some (fs.elements path :: st.includeTree) ∧
          ((∀ q ∈ active, fs.elements q ∈ st.includeTree) →
            activeInChain fs st.includeTree (.call path active :: probes ++ tl)) := by
        intro probes tl hp ht
        have hc : calls (probes ++ tl) = [] := by rw [calls_append, hp, ht]; rfl
        have := replay_of_no_calls fs (fs.elements path :: st.includeTree) (probes ++ tl) hc
        refine ⟨by simp only [List.cons_append, replay, hin, if_false]; exact this.1, ?_⟩
        intro hq
        exact ⟨hq, this.2⟩
      have hstat : ∀ fullPath, calls (if caching then [Event.stat fullPath] else []) = [] := by
        intro fullPath
        cases caching <;> rfl
      rcases hcase with ⟨e, probes, hf, rfl, rfl, rfl⟩ | ⟨fullPath, probes, hf, hcase⟩
      · have hp : calls probes = [] := by
          have := (findFullPath_events fs mSearchPaths path parentPath).1
          rw [hf] at this
          exact this
        have := hpre probes [] hp rfl
        simp only [List.append_nil] at this
        exact ⟨Or.inl this.1, this.2⟩
      · have hp : calls probes = [] := by
          have := (findFullPath_events fs mSearchPaths path parentPath).1
          rw [hf] at this
          exact this
        rcases hcase with ⟨cached, -, -, rfl, rfl, rfl⟩ | ⟨-, hcase⟩
        · have := hpre probes _ hp (hstat fullPath)
          exact ⟨Or.inl this.1, this.2⟩
        · rcases hcase with ⟨-, rfl, rfl, rfl⟩ | ⟨content, r, s, -, hs, hfin⟩
          · have := hpre probes ((if caching then [Event.stat fullPath] else []) ++
              [.ifstream fullPath]) hp (by rw [calls_append, hstat]; rfl)
            simp only [preamble, List.cons_append, List.append_assoc] at this ⊢
            exact ⟨Or.inl this.1, this.2⟩
          · obtain ⟨new, hev, hinv, hact⟩ := scanLines_chain fs _ (path :: active)
              (fun cap s0 res0 s2 e0 h0 => ih _ _ _ _ _ _ _ h0) _ _ _ _ _ _ _ _ hs
            have h0 : replay fs st.includeTree
                  (preamble caching path active probes fullPath ++ [.ifstream fullPath]) =
                some (fs.elements path :: st.includeTree) ∧
                ((∀ q ∈ active, fs.elements q ∈ st.includeTree) → activeInChain fs st.includeTree
                  (preamble caching path active probes fullPath ++ [.ifstream fullPath])) := by
              have := hpre probes ((if caching then [Event.stat fullPath] else []) ++
                [.ifstream fullPath]) hp (by rw [calls_append, hstat]; rfl)
              simpa only [preamble, List.cons_append, List.append_assoc] using this
            have hst2 : st2.includeTree = s.includeTree := by
              rcases hfin with ⟨e, -, -, rfl⟩ | ⟨output, -, -, rfl⟩
              · rfl
              · cases caching <;> rfl
            have hres : ChainInv fs (fs.elements path :: st.includeTree) res s.includeTree new := by
              rcases hfin with ⟨e, rfl, rfl, -⟩ | ⟨output, rfl, rfl, -⟩
              · exact hinv
              · exact hinv
            rw [hst2, hev]
            refine ⟨ChainInv_append _ _ _ _ _ _ _ h0.1 hres, ?_⟩
            intro hq
            rw [activeInChain_append _ _ _ _ _ h0.1]
            refine ⟨h0.2 hq, hact ?_⟩
            intro q hqa
            rcases List.mem_cons.1 hqa with rfl | hqa
            · exact List.mem_cons_self _ _
            · exact List.mem_cons_of_mem _ (hq q hqa)

/-! ## Repeated requests -/

theorem ChainInv_repeat (fs : FileSystem) (c c2 : List PathKey)
    (res : Except ShaderPreprocessorExc (List Char))
    (ev T1 T2 : List Event) (p : Path) (a : List Path) (h : ChainInv fs c res c2 ev)
    (hev : ev = T1 ++ .call p a :: T2)
    (hp : fs.elements p ∈ c ∨ fs.elements p ∈ (calls T1).map fs.elements) :
    res = .error (.circularInclude p) ∧ T2 = [] := by
  rcases h with h | ⟨T, q, b, hT, hrep, -, hres⟩
  · rw [hev] at h
    have := replay_split _ _ _ _ _ _ _ h
    rcases hp with hp | hp
    · exact absurd hp this.1
    · exact absurd hp this.2
  · rcases List.eq_nil_or_concat T2 with hnil | ⟨T3, x, hx⟩
    · subst hnil
      rw [hev] at hT
      have := List.append_inj' hT rfl
      simp only [List.cons.injEq, Event.call.injEq, and_true] at this
      obtain ⟨-, rfl, -⟩ := this
      exact ⟨hres, rfl⟩
    · subst hx
      rw [hev] at hT
      have hT2 : (T1 ++ .call p a :: T3) ++ [x] = T ++ [.call q b] := by
        rw [← hT]
        simp
      have := List.append_inj' hT2 rfl
      rw [← this.1] at hrep
      have := replay_split _ _ _ _ _ _ _ hrep
      rcases hp with hp | hp
      · exact absurd hp this.1
      · exact absurd hp this.2

theorem activeInChain_split (fs : FileSystem) (c : List PathKey) (T1 T2 : List Event)
    (p : Path) (a : List Path) (h : activeInChain fs c (T1 ++ .call p a :: T2)) :
    ∀ q ∈ a, fs.elements q ∈ c ∨ fs.elements q ∈ (calls T1).map fs.elements := by
  induction T1 generalizing c with
  | nil =>
    intro q hq
    exact Or.inl (h.1 q hq)
  | cons e T1 ih =>
    intro q hq
    cases e with
    | call p2 a2 =>
      have := ih (fs.elements p2 :: c) h.2 q hq
      simp only [calls, List.map_cons, List.mem_cons] at this ⊢
      tauto
    | probe f => exact ih c h q hq
    | stat f => exact ih c h q hq
    | ifstream f => exact ih c h q hq

theorem ChainInv_calls (fs : FileSystem) (c c2 : List PathKey)
    (res : Except ShaderPreprocessorExc (List Char))
    (ev : List Event) (h : ChainInv fs c res c2 ev) :
    (∃ added, c2 = added ++ c) ∧ (∀ p ∈ calls ev, fs.elements p ∈ c2) ∧
      (calls ev).length ≤ c2.length - c.length + 1 ∧ (c.Nodup → c2.Nodup) := by
  rcases h with h | ⟨T, q, b, rfl, hrep, hq, -⟩
  · obtain ⟨h1, h2, h3⟩ := replay_calls _ _ _ _ h
    refine ⟨⟨_, h1⟩, ?_, by omega, h3⟩
    intro p hp
    rw [h1]
    exact List.mem_append_left _ (List.mem_reverse.2 (List.mem_map_of_mem _ hp))
  · obtain ⟨h1, h2, h3⟩ := replay_calls _ _ _ _ hrep
    refine ⟨⟨_, h1⟩, ?_, ?_, h3⟩
    · intro p hp
      rw [calls_append] at hp
      rcases List.mem_append.1 hp with hp | hp
      · rw [h1]
        exact List.mem_append_left _ (List.mem_reverse.2 (List.mem_map_of_mem _ hp))
      · simp only [calls, List.mem_singleton] at hp
        rw [hp]
        exact hq
    · rw [calls_append]
      simp only [calls, List.length_append, List.length_singleton]
      omega

/-- C3. In every `parse` call, on every filesystem and with every cache, an entry
into `parseRecursive` for a path that equals, as an `fs::path`, the requested
path of a frame still running (the file being scanned or one above it) makes the
call throw the circular-include exception for that path, and that entry is the
last thing the call does: the path is not resolved, probed or opened again.  The
test precedes every use of the filesystem: a frame entered for a path of the
chain throws the same exception on any disk. -/
theorem ancestor_cycle_detection (caching : Bool) (fs : FileSystem)
    (mSearchPaths : List Path) (fuel : Nat) (mCachedSources : PathKey → Option Source)
    (root : Path) (o : Outcome)
    (h : parse caching fs mSearchPaths fuel mCachedSources root = some o) :
    (∀ (T1 : List Event) (p : Path) (running : List Path) (T2 : List Event),
      o.2.2 = T1 ++ .call p running :: T2 →
      (∃ q ∈ running, fs.elements q = fs.elements p) →
        o.1 = .error (.circularInclude p) ∧ T2 = []) ∧
    (∀ (disk : FileSystem) (roots : List Path) (n : Nat) (path parentPath : Path)
        (running : List Path) (s : State), disk.elements path ∈ s.includeTree →
      parseRecursive caching disk roots (n + 1) path parentPath running s =
        some (.error (.circularInclude path), s, [.call path running])) := by
  refine ⟨?_, fun disk roots n path parentPath running s hin => by
    rw [parseRecursive_succ, if_pos hin]⟩
  obtain ⟨res, st, ev⟩ := o
  rintro T1 p running T2 hev ⟨q, hq, hqp⟩
  obtain ⟨hinv, hact⟩ := parseRecursive_chain _ _ _ _ _ _ _ _ _ _ _ h
  have hact2 := hact (by simp)
  simp only at hev
  rw [hev] at hact2
  have := activeInChain_split _ _ _ _ _ _ hact2 q hq
  rw [hqp] at this
  exact ChainInv_repeat _ _ _ _ _ _ _ _ _ hinv hev this

theorem scanLines_sameResult (recC recU : Path → State → Option Outcome)
    (hrec : ∀ cap sc su, Corresponds sc su → SameResult (recC cap sc) (recU cap su))
    (lines : List (List Char)) (n : Nat) (output : List Char) (sc su : State)
    (evc evu : List Event) (h : Corresponds sc su) :
    SameResult (scanLines recC lines n output sc evc) (scanLines recU lines n output su evu) := by
  induction lines generalizing n output sc su evc evu with
  | nil => exact ⟨rfl, h⟩
  | cons line rest ih =>
    cases hm : regex_search sIncludeRegex line with
    | none =>
      simp only [scanLines, hm]
      exact ih _ _ _ _ _ _ h
    | some cap =>
      simp only [scanLines, hm]
      have := hrec cap sc su h
      rcases hc : recC cap sc with _ | ⟨rc, sc1, ec⟩ <;>
        rcases hu : recU cap su with _ | ⟨ru, su1, eu⟩ <;>
        rw [hc, hu] at this
      · trivial
      · exact this.elim
      · exact this.elim
      · obtain ⟨hres, hcor⟩ := this
        simp only at hres hcor
        subst hres
        cases rc with
        | error e => exact ⟨rfl, hcor⟩
        | ok text => exact ih _ _ _ _ _ _ hcor

theorem corresponds_entered (fs : FileSystem) (sc su : State) (path : Path)
    (h : Corresponds sc su) : Corresponds (entered fs sc path) (entered fs su path) := by
  refine ⟨by simp [entered, h.1], ?_⟩
  intro p hp
  exact List.mem_cons_of_mem _ (h.2 p hp)

theorem parseRecursive_sameResult (fs : FileSystem) (mSearchPaths : List Path) (fuel : Nat)
    (path parentPath : Path) (active : List Path) (sc su : State) (h : Corresponds sc su) :
    SameResult (parseRecursive true fs mSearchPaths fuel path parentPath active sc)
      (parseRecursive false fs mSearchPaths fuel path parentPath active su) := by
  induction fuel generalizing path parentPath active sc su with
  | zero => trivial
  | succ fuel ih =>
    rw [parseRecursive_succ, parseRecursive_succ]
    by_cases hin : fs.elements path ∈ sc.includeTree
    · rw [if_pos hin, if_pos (h.1 ▸ hin)]
      exact ⟨rfl, h⟩
    · rw [if_neg hin, if_neg (h.1 ▸ hin)]
      have hent := corresponds_entered fs sc su path h
      rcases hf : findFullPath fs mSearchPaths path parentPath with ⟨r, probes⟩
      cases r with
      | error e => exact ⟨rfl, hent⟩
      | ok fullPath =>
        have hnone : sc.mCachedSources (fs.elements path) = none := by
          by_contra hne
          exact hin (h.2 _ hne)
        simp only [if_true, Bool.false_eq_true, if_false]
        rw [cacheLookup_none fs { sc with includeTree := fs.elements path :: sc.includeTree }
          path _ hnone]
        cases hcont : fs.contents fullPath with
        | none => exact ⟨rfl, hent⟩
        | some content =>
          simp only
          have hs := scanLines_sameResult
            (fun captured s =>
              parseRecursive true fs mSearchPaths fuel captured (fs.parent_path fullPath)
                (path :: active) s)
            (fun captured s =>
              parseRecursive false fs mSearchPaths fuel captured (fs.parent_path fullPath)
                (path :: active) s)
            (fun cap s1 s2 h12 => ih cap _ _ s1 s2 h12) (getlines content) 1 []
            { sc with includeTree := fs.elements path :: sc.includeTree }
            { su with includeTree := fs.elements path :: su.includeTree }
            ((.call path active :: probes ++ [.stat fullPath]) ++ [.ifstream fullPath])
            ((.call path active :: probes ++ []) ++ [.ifstream fullPath]) hent
          cases hc : scanLines
              (fun captured s =>
                parseRecursive true fs mSearchPaths fuel captured (fs.parent_path fullPath)
                  (path :: active) s) (getlines content) 1 []
              { sc with includeTree := fs.elements path :: sc.includeTree }
              ((.call path active :: probes ++ [.stat fullPath]) ++ [.ifstream fullPath]) with
          | none =>
            cases hu : scanLines
                (fun captured s =>
                  parseRecursive false fs mSearchPaths fuel captured (fs.parent_path fullPath)
                    (path :: active) s) (getlines content) 1 []
                { su with includeTree := fs.elements path :: su.includeTree }
                ((.call path active :: probes ++ []) ++ [.ifstream fullPath]) with
            | none => trivial
            | some ou =>
              rw [hc, hu] at hs
              exact hs.elim
          | some oc =>
            cases hu : scanLines
                (fun captured s =>
                  parseRecursive false fs mSearchPaths fuel captured (fs.parent_path fullPath)
                    (path :: active) s) (getlines content) 1 []
                { su with includeTree := fs.elements path :: su.includeTree }
                ((.call path active :: probes ++ []) ++ [.ifstream fullPath]) with
            | none =>
              rw [hc, hu] at hs
              exact hs.elim
            | some ou =>
              rw [hc, hu] at hs
              obtain ⟨rc, sc2, ec⟩ := oc
              obtain ⟨ru, su2, eu⟩ := ou
              obtain ⟨hres, hcor⟩ := hs
              simp only at hres hcor
              subst hres
              cases rc with
              | error e => exact ⟨rfl, hcor⟩
              | ok output =>
                refine ⟨rfl, hcor.1, ?_⟩
                intro p hp
                by_cases hpp : p = fs.elements path
                · obtain ⟨new, -, hinv, -⟩ := scanLines_chain fs _ (path :: active)
                    (fun cap s0 res0 s2 e0 h0 => parseRecursive_chain _ _ _ _ _ _ _ _ _ _ _ h0)
                    _ _ _ _ _ _ _ _ hc
                  obtain ⟨⟨added, hadd⟩, -⟩ := ChainInv_calls _ _ _ _ _ hinv
                  show p ∈ sc2.includeTree
                  rw [hadd, hpp]
                  simp
                · apply hcor.2
                  simpa [cacheStore, hpp] using hp

/-- C1 (amended). Started with an empty cache, `parse` with caching gives exactly
what `parse` without caching gives: the same string, the same exception, or both
exhaust the same recursion budget. -/
theorem caching_transparent_from_empty_cache (fs : FileSystem) (mSearchPaths : List Path)
    (fuel : Nat) (root : Path) :
    (parse true fs mSearchPaths fuel noCache root).map (fun o => o.1) =
      (parse false fs mSearchPaths fuel noCache root).map fun o => o.1 := by
  have h := parseRecursive_sameResult fs mSearchPaths fuel root [] [] ⟨noCache, []⟩
    ⟨noCache, []⟩ ⟨rfl, fun p hp => absurd rfl hp⟩
  unfold parse
  cases hc : parseRecursive true fs mSearchPaths fuel root [] [] ⟨noCache, []⟩ with
  | none =>
    cases hu : parseRecursive false fs mSearchPaths fuel root [] [] ⟨noCache, []⟩ with
    | none => rfl
    | some ou =>
      rw [hc, hu] at h
      exact h.elim
  | some oc =>
    cases hu : parseRecursive false fs mSearchPaths fuel root [] [] ⟨noCache, []⟩ with
    | none =>
      rw [hc, hu] at h
      exact h.elim
    | some ou =>
      rw [hc, hu] at h
      simp only [Option.map_some', Option.some.injEq]
      exact h.1

/-! ## The cache test and the shape of the output -/

theorem cacheLookup_entered (fs : FileSystem) (st : State) (path : Path) (t : Int)
    (cached : Source) :
    cacheLookup fs (entered fs st path) path t = some cached ↔
      st.mCachedSources (fs.elements path) = some cached ∧ t ≤ cached.mTimeLastWrite := by
  unfold cacheLookup entered
  cases hc : st.mCachedSources (fs.elements path) with
  | none => simp
  | some c =>
    simp only [ge_iff_le, Option.some.injEq]
    by_cases ht : t ≤ c.mTimeLastWrite
    · simp only [ht, if_true, Option.some.injEq]
      constructor
      · rintro rfl
        exact ⟨rfl, ht⟩
      · rintro ⟨h, -⟩
        exact h
    · simp only [ht, if_false]
      constructor
      · intro h
        exact absurd h (by simp)
      · rintro ⟨rfl, h2⟩
        exact absurd h2 ht

theorem scanLines_children (recurse : Path → State → Option Outcome)
    (lines : List (List Char)) (n : Nat) (output : List Char) (st : State) (ev : List Event)
    (text : List Char) (st2 : State) (ev2 : List Event)
    (h : scanLines recurse lines n output st ev = some (.ok text, st2, ev2)) :
    ∃ children, Children recurse lines st children st2 ∧
      text = output ++ render lines n children := by
  induction lines generalizing n output st ev with
  | nil =>
    simp only [scanLines, Option.some.injEq, Prod.mk.injEq, Except.ok.injEq] at h
    exact ⟨[], ⟨rfl, h.2.1.symm⟩, by simp [render, h.1]⟩
  | cons line rest ih =>
    cases hm : regex_search sIncludeRegex line with
    | none =>
      simp only [scanLines, hm] at h
      obtain ⟨children, hch, htext⟩ := ih _ _ _ _ h
      exact ⟨children, by simpa only [Children, hm] using hch, by simp [render, hm, htext]⟩
    | some cap =>
      simp only [scanLines, hm] at h
      cases hr : recurse cap st with
      | none => simp [hr] at h
      | some o =>
        obtain ⟨r1, s1, e1⟩ := o
        rw [hr] at h
        cases r1 with
        | error e => simp at h
        | ok child =>
          simp only at h
          obtain ⟨children, hch, htext⟩ := ih _ _ _ _ h
          refine ⟨child :: children, ?_, ?_⟩
          · simp only [Children, hm]
            exact ⟨child, s1, e1, children, hr, rfl, hch⟩
          · simp [render, hm, htext, lineMarker]

theorem Children_unique (recurse : Path → State → Option Outcome)
    (lines : List (List Char)) (st : State) (c1 c2 : List (List Char)) (f1 f2 : State)
    (h1 : Children recurse lines st c1 f1) (h2 : Children recurse lines st c2 f2) :
    c1 = c2 ∧ f1 = f2 := by
  induction lines generalizing st c1 c2 with
  | nil =>
    obtain ⟨rfl, rfl⟩ := h1
    obtain ⟨rfl, rfl⟩ := h2
    exact ⟨rfl, rfl⟩
  | cons line rest ih =>
    cases hm : regex_search sIncludeRegex line with
    | none =>
      simp only [Children, hm] at h1 h2
      exact ih _ _ _ h1 h2
    | some cap =>
      simp only [Children, hm] at h1 h2
      obtain ⟨child1, s1, e1, o1, hr1, rfl, hc1⟩ := h1
      obtain ⟨child2, s2, e2, o2, hr2, rfl, hc2⟩ := h2
      rw [hr1] at hr2
      simp only [Option.some.injEq, Prod.mk.injEq, Except.ok.injEq] at hr2
      obtain ⟨rfl, rfl, -⟩ := hr2
      obtain ⟨rfl, rfl⟩ := ih _ _ _ hc1 hc2
      exact ⟨rfl, rfl⟩

theorem render_only_directives (recurse : Path → State → Option Outcome)
    (lines : List (List Char)) (n : Nat) (st : State) (children : List (List Char))
    (final : State) (hch : Children recurse lines st children final)
    (hall : ∀ line ∈ lines, ∃ cap, regex_search sIncludeRegex line = some cap) :
    render lines n children = markersOnly n children := by
  induction lines generalizing n st children with
  | nil =>
    obtain ⟨rfl, -⟩ := hch
    rfl
  | cons line rest ih =>
    obtain ⟨cap, hcap⟩ := hall line (by simp)
    simp only [Children, hcap] at hch
    obtain ⟨child, s1, e1, others, -, rfl, hrest⟩ := hch
    simp only [render, hcap, markersOnly]
    rw [ih _ _ _ hrest fun l hl => hall l (List.mem_cons_of_mem _ hl)]

theorem scanLines_split (recurse : Path → State → Option Outcome)
    (pre : List (List Char)) (d : List Char) (post : List (List Char)) (cap : Path)
    (hd : regex_search sIncludeRegex d = some cap)
    (n : Nat) (output : List Char) (st : State) (ev : List Event)
    (text : List Char) (st2 : State) (ev2 : List Event)
    (h : scanLines recurse (pre ++ d :: post) n output st ev = some (.ok text, st2, ev2)) :
    ∃ before s1 e1 child s3 e3,
      scanLines recurse pre n output st ev = some (.ok before, s1, e1) ∧
      recurse cap s1 = some (.ok child, s3, e3) ∧
      scanLines recurse post (n + pre.length + 1)
        (before ++ child ++ lineMarker (n + pre.length) ++ ['\n']) s3 (e1 ++ e3) =
          some (.ok text, st2, ev2) := by
  induction pre generalizing n output st ev with
  | nil =>
    simp only [List.nil_append, scanLines, hd] at h
    cases hr : recurse cap st with
    | none => simp [hr] at h
    | some o =>
      obtain ⟨r1, s1, e1⟩ := o
      rw [hr] at h
      cases r1 with
      | error e => simp at h
      | ok child => exact ⟨output, st, ev, child, s1, e1, rfl, hr, h⟩
  | cons line rest ih =>
    have hstep : ∀ out1 s1 e1,
        scanLines recurse (rest ++ d :: post) (n + 1) out1 s1 e1 =
          some (.ok text, st2, ev2) →
        ∃ before s1b e1b child s3 e3,
          scanLines recurse rest (n + 1) out1 s1 e1 = some (.ok before, s1b, e1b) ∧
          recurse cap s1b = some (.ok child, s3, e3) ∧
          scanLines recurse post (n + (line :: rest).length + 1)
            (before ++ child ++ lineMarker (n + (line :: rest).length) ++ ['\n']) s3
            (e1b ++ e3) = some (.ok text, st2, ev2) := by
      intro out1 s1 e1 h1
      obtain ⟨before, s1b, e1b, child, s3, e3, ha, hb, hc⟩ := ih _ _ _ _ h1
      refine ⟨before, s1b, e1b, child, s3, e3, ha, hb, ?_⟩
      have e : n + (line :: rest).length = n + 1 + rest.length := by
        simp only [List.length_cons]
        omega
      rw [e]
      exact hc
    cases hm : regex_search sIncludeRegex line with
    | none =>
      simp only [List.cons_append, scanLines, hm] at h ⊢
      exact hstep _ _ _ h
    | some cap1 =>
      simp only [List.cons_append, scanLines, hm] at h ⊢
      cases hr : recurse cap1 st with
      | none => simp [hr] at h
      | some o =>
        obtain ⟨r1, s1, e1⟩ := o
        rw [hr] at h
        cases r1 with
        | error e => simp at h
        | ok child1 =>
          simp only at h ⊢
          exact hstep _ _ _ h

theorem scanLines_output_prefix (recurse : Path → State → Option Outcome)
    (lines : List (List Char)) (n : Nat) (output : List Char) (st : State) (ev : List Event)
    (text : List Char) (st2 : State) (ev2 : List Event)
    (h : scanLines recurse lines n output st ev = some (.ok text, st2, ev2)) :
    ∃ after, text = output ++ after := by
  obtain ⟨children, -, htext⟩ := scanLines_children recurse lines n output st ev text st2 ev2 h
  exact ⟨_, htext⟩

/-- A call that returns a string although the cache holds no entry for its path as
new as the file has run the line loop over the current contents of the file
(and, with caching, stored the result). -/
theorem parseRecursive_expanded (caching : Bool) (fs : FileSystem) (mSearchPaths : List Path)
    (fuel : Nat) (path parentPath : Path) (active : List Path) (st : State)
    (text : List Char) (st2 : State) (ev : List Event) (fullPath : Path)
    (hstale : caching = true → ∀ cached,
      st.mCachedSources (fs.elements path) = some cached →
        cached.mTimeLastWrite < fs.last_write_time fullPath)
    (hres : (findFullPath fs mSearchPaths path parentPath).1 = .ok fullPath)
    (h : parseRecursive caching fs mSearchPaths (fuel + 1) path parentPath active st =
      some (.ok text, st2, ev)) :
    ∃ content s,
      fs.contents fullPath = some content ∧
      scanLines
        (fun captured s =>
          parseRecursive caching fs mSearchPaths fuel captured
            (fs.parent_path fullPath) (path :: active) s)
        (getlines content) 1 [] (entered fs st path)
        (preamble caching path active (findFullPath fs mSearchPaths path parentPath).2
          fullPath ++ [.ifstream fullPath]) = some (.ok text, s, ev) ∧
      st2 = (if caching then cacheStore fs s path (fs.last_write_time fullPath) text else s) := by
  rcases parseRecursive_inv _ _ _ _ _ _ _ _ _ _ _ h with
    ⟨-, hr, -⟩ | ⟨-, hcase⟩
  · exact absurd hr (by simp)
  · rcases hcase with ⟨e, probes, -, hr, -⟩ | ⟨fullPath2, probes, hf, hcase⟩
    · exact absurd hr (by simp)
    · rw [hf] at hres ⊢
      simp only [Except.ok.injEq] at hres
      subst hres
      rcases hcase with ⟨cached, hc, hl, -⟩ | ⟨-, hcase⟩
      · obtain ⟨hentry, hfresh⟩ := (cacheLookup_entered fs st path _ cached).1 hl
        have := hstale hc cached hentry
        omega
      · rcases hcase with ⟨-, hr, -⟩ | ⟨content, r, s, hcont, hs, hfin⟩
        · exact absurd hr (by simp)
        · rcases hfin with ⟨e, -, hr, -⟩ | ⟨output, hro, hr, hst⟩
          · exact absurd hr (by simp)
          · simp only [Except.ok.injEq] at hr
            subst hr
            subst hro
            exact ⟨content, s, hcont, hs, hst⟩

/-! ## Cache hits, markers and newlines -/

/-- C2 (amended). When a file is expanded (with caching: the cache holds no entry
for its path, or one older than the file) and its line `N` is an include
directive, the string returned is the output of the lines before the directive,
then the string the recursive call for the captured path returns in the state
those lines left, then right after it `#line N` and a newline, with `N` the
line number of the directive itself, then what the rest of the loop appends. -/
theorem line_marker_number (caching : Bool) (fs : FileSystem) (mSearchPaths : List Path)
    (fuel : Nat) (path parentPath : Path) (active : List Path) (st : State)
    (text : List Char) (st2 : State) (ev : List Event) (fullPath : Path)
    (content : List Char) (pre : List (List Char)) (d : List Char) (post : List (List Char))
    (cap : Path)
    (hstale : caching = true → ∀ cached,
      st.mCachedSources (fs.elements path) = some cached →
        cached.mTimeLastWrite < fs.last_write_time fullPath)
    (h : parseRecursive caching fs mSearchPaths (fuel + 1) path parentPath active st =
      some (.ok text, st2, ev))
    (hres : (findFullPath fs mSearchPaths path parentPath).1 = .ok fullPath)
    (hcont : fs.contents fullPath = some content)
    (hlines : getlines content = pre ++ d :: post)
    (hd : regex_search sIncludeRegex d = some cap) :
    ∃ before s1 e1 child s3 e3 s,
      scanLines
        (fun captured s =>
          parseRecursive caching fs mSearchPaths fuel captured
            (fs.parent_path fullPath) (path :: active) s)
        pre 1 [] (entered fs st path)
        (preamble caching path active (findFullPath fs mSearchPaths path parentPath).2
          fullPath ++ [.ifstream fullPath]) = some (.ok before, s1, e1) ∧
      parseRecursive caching fs mSearchPaths fuel cap (fs.parent_path fullPath)
        (path :: active) s1 = some (.ok child, s3, e3) ∧
      scanLines
        (fun captured s =>
          parseRecursive caching fs mSearchPaths fuel captured
            (fs.parent_path fullPath) (path :: active) s)
        post (pre.length + 2)
        (before ++ child ++ ("#line ".toList ++ Nat.toDigits 10 (pre.length + 1) ++ ['\n'])
          ++ ['\n']) s3 (e1 ++ e3) = some (.ok text, s, ev) ∧
      ∃ after,
        text = before ++ child ++ ("#line ".toList ++ Nat.toDigits 10 (pre.length + 1) ++ ['\n'])
          ++ after := by
  obtain ⟨content2, s, hcont2, hs, -⟩ :=
    parseRecursive_expanded _ _ _ _ _ _ _ _ _ _ _ _ hstale hres h
  rw [hcont] at hcont2
  simp only [Option.some.injEq] at hcont2
  subst hcont2
  rw [hlines] at hs
  obtain ⟨before, s1, e1, child, s3, e3, ha, hb, hc⟩ :=
    scanLines_split _ pre d post cap hd _ _ _ _ _ _ _ hs
  have e1' : 1 + pre.length + 1 = pre.length + 2 := by omega
  have e2' : 1 + pre.length = pre.length + 1 := by omega
  rw [e1', e2', lineMarker] at hc
  obtain ⟨after, hafter⟩ := scanLines_output_prefix _ _ _ _ _ _ _ _ _ hc
  refine ⟨before, s1, e1, child, s3, e3, s, ha, hb, hc, '\n' :: after, ?_⟩
  rw [hafter]
  simp

/-- C10 (amended). The string a call builds when it expands a file (with caching:
the cache holds no entry for its path, or one older than the file) is, line by
line: a line that is no directive followed by one newline; for a directive the
string the recursive call returns, the marker `#line` with the number of that
line, and two newlines (the end of the marker line and a blank line).  The
expansions are the ones the recursive calls return, each in the state the
previous one left, and nothing else fits.  For a file of directives only the
string is the expansions, each with its marker line and a blank line. -/
theorem expansion_shape (caching : Bool) (fs : FileSystem) (mSearchPaths : List Path)
    (fuel : Nat) (path parentPath : Path) (active : List Path) (st : State)
    (text : List Char) (st2 : State) (ev : List Event)
    (hstale : caching = true → ∀ fullPath cached,
      (findFullPath fs mSearchPaths path parentPath).1 = .ok fullPath →
      st.mCachedSources (fs.elements path) = some cached →
        cached.mTimeLastWrite < fs.last_write_time fullPath)
    (h : parseRecursive caching fs mSearchPaths (fuel + 1) path parentPath active st =
      some (.ok text, st2, ev)) :
    ∃ fullPath content children s,
      (findFullPath fs mSearchPaths path parentPath).1 = .ok fullPath ∧
      fs.contents fullPath = some content ∧
      Children
        (fun captured s =>
          parseRecursive caching fs mSearchPaths fuel captured
            (fs.parent_path fullPath) (path :: active) s)
        (getlines content) (entered fs st path) children s ∧
      text = render (getlines content) 1 children ∧
      (∀ children2 s2,
        Children
          (fun captured s =>
            parseRecursive caching fs mSearchPaths fuel captured
              (fs.parent_path fullPath) (path :: active) s)
          (getlines content) (entered fs st path) children2 s2 →
        children2 = children ∧ s2 = s) ∧
      ((∀ line ∈ getlines content, ∃ cap, regex_search sIncludeRegex line = some cap) →
        text = markersOnly 1 children) := by
  have hfull : ∃ fullPath, (findFullPath fs mSearchPaths path parentPath).1 = .ok fullPath := by
    rcases parseRecursive_inv _ _ _ _ _ _ _ _ _ _ _ h with
      ⟨-, hr, -⟩ | ⟨-, hcase⟩
    · exact absurd hr (by simp)
    · rcases hcase with ⟨e, probes, -, hr, -⟩ | ⟨fullPath, probes, hf, -⟩
      · exact absurd hr (by simp)
      · exact ⟨fullPath, by rw [hf]⟩
  obtain ⟨fullPath, hres⟩ := hfull
  obtain ⟨content, s, hcont, hs, -⟩ :=
    parseRecursive_expanded _ _ _ _ _ _ _ _ _ _ _ fullPath
      (fun hc cached hentry => hstale hc fullPath cached hres hentry) hres h
  obtain ⟨children, hch, htext⟩ := scanLines_children _ _ _ _ _ _ _ _ _ hs
  have htext2 : text = render (getlines content) 1 children := by simpa using htext
  refine ⟨fullPath, content, children, s, hres, hcont, hch, htext2, ?_, ?_⟩
  · intro children2 s2 hch2
    exact Children_unique _ _ _ _ _ _ _ hch2 hch
  · intro hall
    rw [htext2]
    exact render_only_directives _ _ _ _ _ _ hch hall

/-! ## Examples -/

/-- The counterexample to C1: a root cached before the file it includes was
rewritten is returned stale, and on an unchanged disk a root that includes a file
twice, once through another file, is accepted from the cache although the
uncached run throws. -/
theorem caching_not_transparent :
    ((parse true diskAfter [] 3 (cacheAfter (parse true diskBefore [] 3 noCache "a.glsl".toList))
        "a.glsl".toList).map (fun o => o.1) = some (.ok "old\n#line 1\n\n".toList) ∧
      (parse false diskAfter [] 3
        (cacheAfter (parse true diskBefore [] 3 noCache "a.glsl".toList))
        "a.glsl".toList).map (fun o => o.1) = some (.ok "new\n#line 1\n\n".toList)) ∧
    ((parse true diamondDisk [] 4
        (cacheAfter (parse true diamondDisk [] 4 noCache "r.glsl".toList))
        "r.glsl".toList).map (fun o => o.1) =
          some (.ok "x\n#line 1\n\n#line 1\n\nx\n#line 2\n\n".toList) ∧
      (parse false diamondDisk [] 4
        (cacheAfter (parse true diamondDisk [] 4 noCache "r.glsl".toList))
        "r.glsl".toList).map (fun o => o.1) =
          some (.error (.circularInclude "b.glsl".toList))) :=
  ⟨⟨rfl, rfl⟩, rfl, rfl⟩

/-- The counterexample to C2: the marker after the file included on line 2 of a
three-line root is `#line 2`, and `#line 3` occurs nowhere in the output. -/
theorem marker_is_directive_line :
    (parse true markerDisk [] 2 noCache "a.glsl".toList).map (fun o => o.1) =
        some (.ok "x\ny\n#line 2\n\nz\n".toList) ∧
      ¬ ("#line 3".toList <:+: "x\ny\n#line 2\n\nz\n".toList) :=
  ⟨rfl, by decide⟩

/-- The witness of `findFullPath_search_order`: `x.glsl` requested from a file of
`P` resolves to the copy in `P`, not to the one in the search root `S`. -/
theorem findFullPath_search_order_witness :
    (findFullPath searchDisk ["S".toList] "x.glsl".toList "P".toList).1 =
      .ok "P/x.glsl".toList :=
  (findFullPath_search_order searchDisk ["S".toList] "x.glsl".toList "P".toList).1 rfl

/-- The counterexample to C7: a directive indented with a tab, or with a tab after
`include`, matches the grammar of the specification, is no match for the pattern
of the source, and is copied to the output; a directive followed by a carriage
return fails the grammar of the specification at `$` and is expanded by the
source, whose pattern has no end anchor. -/
theorem tab_is_no_blank :
    regex_search specIncludeRegex "\t#include \"b.glsl\"".toList = some "b.glsl".toList ∧
    regex_search sIncludeRegex "\t#include \"b.glsl\"".toList = none ∧
    regex_search specIncludeRegex "#include\t\"b.glsl\"".toList = some "b.glsl".toList ∧
    regex_search sIncludeRegex "#include\t\"b.glsl\"".toList = none ∧
    (parse true tabDisk [] 2 noCache "a.glsl".toList).map (fun o => o.1) =
      some (.ok "\t#include \"b.glsl\"\n".toList) ∧
    regex_search specIncludeRegex "#include \"b.glsl\"\r".toList = none ∧
    regex_search sIncludeRegex "#include \"b.glsl\"\r".toList = some "b.glsl".toList ∧
    (parse true crlfDisk [] 2 noCache "a.glsl".toList).map (fun o => o.1) =
      some (.ok "y\n#line 1\n\n".toList) :=
  ⟨by decide, by decide, by decide, by decide, rfl, by decide, by decide, rfl⟩

/-- The witness of `include_directive_grammar`: blanks around `#`, mismatched
delimiters, and a capture that runs to the last closing delimiter. -/
theorem include_directive_grammar_witness :
    IsIncludeDirective "  # include  <a.glsl\" > x".toList "a.glsl\" ".toList ∧
      ∀ cap2, IsIncludeDirective "  # include  <a.glsl\" > x".toList cap2 →
        cap2.length ≤ "a.glsl\" ".toList.length :=
  ((include_directive_grammar "  # include  <a.glsl\" > x".toList).2.1 "a.glsl\" ".toList).1
    (by decide)

/-- The counterexample to C10: the marker line of a directive is followed by a
blank line, so the output differs from the one with a single newline. -/
theorem marker_followed_by_blank_line :
    (parse true blankLineDisk [] 2 noCache "a.glsl".toList).map (fun o => o.1) =
        some (.ok "y\n#line 1\n\nz\n".toList) ∧
      "y\n#line 1\n\nz\n".toList ≠ "y\n#line 1\nz\n".toList :=
  ⟨rfl, by decide⟩

theorem staleCache_entry (cached : Source)
    (h : staleCache (toyElements "a.glsl".toList) = some cached) :
    cached.mTimeLastWrite < 1 := by
  rw [staleCache, if_pos rfl] at h
  cases h
  decide

/-- The witness of `line_marker_number`: line 2 of the root of `markerDisk`,
expanded again, with caching, because the entry of the root is older than the
file. -/
theorem line_marker_number_witness :
    ∃ before s1 e1 child s3 e3 s,
      scanLines
        (fun captured s =>
          parseRecursive true markerDisk [] 1 captured
            (markerDisk.parent_path "a.glsl".toList) ["a.glsl".toList] s)
        ["x".toList] 1 [] (entered markerDisk ⟨staleCache, []⟩ "a.glsl".toList)
        (preamble true "a.glsl".toList [] (findFullPath markerDisk [] "a.glsl".toList []).2
          "a.glsl".toList ++ [.ifstream "a.glsl".toList]) = some (.ok before, s1, e1) ∧
      parseRecursive true markerDisk [] 1 "b.glsl".toList
        (markerDisk.parent_path "a.glsl".toList) ["a.glsl".toList] s1 =
          some (.ok child, s3, e3) ∧
      scanLines
        (fun captured s =>
          parseRecursive true markerDisk [] 1 captured
            (markerDisk.parent_path "a.glsl".toList) ["a.glsl".toList] s)
        ["z".toList] (["x".toList].length + 2)
        (before ++ child ++
          ("#line ".toList ++ Nat.toDigits 10 (["x".toList].length + 1) ++ ['\n']) ++ ['\n'])
        s3 (e1 ++ e3) = some (.ok "x\ny\n#line 2\n\nz\n".toList, s,
          [.call "a.glsl".toList [], .probe "a.glsl".toList, .stat "a.glsl".toList,
            .ifstream "a.glsl".toList, .call "b.glsl".toList ["a.glsl".toList],
            .probe "b.glsl".toList, .stat "b.glsl".toList, .ifstream "b.glsl".toList]) ∧
      ∃ after,
        "x\ny\n#line 2\n\nz\n".toList =
          before ++ child ++
            ("#line ".toList ++ Nat.toDigits 10 (["x".toList].length + 1) ++ ['\n']) ++ after :=
  line_marker_number true markerDisk [] 1 "a.glsl".toList [] [] ⟨staleCache, []⟩
    "x\ny\n#line 2\n\nz\n".toList _ _ "a.glsl".toList "x\n#include \"b.glsl\"\nz\n".toList
    ["x".toList] "#include \"b.glsl\"".toList ["z".toList] "b.glsl".toList
    (fun _ cached hc => staleCache_entry cached hc) rfl rfl rfl rfl rfl

/-- The witness of `ancestor_cycle_detection`: `sub/c.glsl` includes itself under
the spelling `sub//c.glsl`, and `a.glsl` includes `b.glsl`, which includes
`a.glsl` while the frame of `a.glsl` is running. -/
theorem ancestor_cycle_detection_witness :
    (∃ o, parse true selfSpellingDisk [] 3 noCache "sub/c.glsl".toList = some o ∧
      opened o.2.2 = ["sub/c.glsl".toList] ∧
      o.1 = .error (.circularInclude "sub//c.glsl".toList)) ∧
    (∃ o, parse true cycleDisk [] 3 noCache "a.glsl".toList = some o ∧
      o.1 = .error (.circularInclude "a.glsl".toList)) :=
  ⟨⟨_, rfl, rfl,
    ((ancestor_cycle_detection true selfSpellingDisk [] 3 noCache "sub/c.glsl".toList _ rfl).1
      [.call "sub/c.glsl".toList [], .probe "sub/c.glsl".toList, .stat "sub/c.glsl".toList,
        .ifstream "sub/c.glsl".toList]
      "sub//c.glsl".toList ["sub/c.glsl".toList] [] rfl
      ⟨"sub/c.glsl".toList, by simp, by decide⟩).1⟩,
   ⟨_, rfl,
    ((ancestor_cycle_detection true cycleDisk [] 3 noCache "a.glsl".toList _ rfl).1
      [.call "a.glsl".toList [], .probe "a.glsl".toList, .stat "a.glsl".toList,
        .ifstream "a.glsl".toList, .call "b.glsl".toList ["a.glsl".toList],
        .probe "b.glsl".toList, .stat "b.glsl".toList, .ifstream "b.glsl".toList]
      "a.glsl".toList ["b.glsl".toList, "a.glsl".toList] [] rfl
      ⟨"a.glsl".toList, by simp, rfl⟩).1⟩⟩

/-- The witness of `expansion_shape`: the root of `blankLineDisk`, expanded again,
with caching, because its entry is older than the file. -/
theorem expansion_shape_witness :
    ∃ fullPath content children s,
      (findFullPath blankLineDisk [] "a.glsl".toList []).1 = .ok fullPath ∧
      blankLineDisk.contents fullPath = some content ∧
      Children
        (fun captured s =>
          parseRecursive true blankLineDisk [] 1 captured
            (blankLineDisk.parent_path fullPath) ["a.glsl".toList] s)
        (getlines content) (entered blankLineDisk ⟨staleCache, []⟩ "a.glsl".toList)
        children s ∧
      "y\n#line 1\n\nz\n".toList = render (getlines content) 1 children ∧
      (∀ children2 s2,
        Children
          (fun captured s =>
            parseRecursive true blankLineDisk [] 1 captured
              (blankLineDisk.parent_path fullPath) ["a.glsl".toList] s)
          (getlines content) (entered blankLineDisk ⟨staleCache, []⟩ "a.glsl".toList)
          children2 s2 →
        children2 = children ∧ s2 = s) ∧
      ((∀ line ∈ getlines content, ∃ cap, regex_search sIncludeRegex line = some cap) →
        "y\n#line 1\n\nz\n".toList = markersOnly 1 children) :=
  expansion_shape true blankLineDisk [] 1 "a.glsl".toList [] [] ⟨staleCache, []⟩
    "y\n#line 1\n\nz\n".toList _ _
    (fun _ fullPath cached hf hc => by
      have hf2 : (Except.ok "a.glsl".toList : Except ShaderPreprocessorExc Path) =
          Except.ok fullPath := hf
      cases hf2
      exact staleCache_entry cached hc)
    rfl

end ShaderPreprocessor
